import Mathlib

/-!
# Verification of `stellar/layer/hinsage.py`

A shallow embedding of the HinSAGE module: the `MeanHinAggregator` Keras
layer (constructor, `build`, `call`, `compute_output_shape`) and the
`HinSAGE` tree composer (`eval_neigh_tree_per_layer`, dims/aggregator
tables, `_input_shapes`, the recursive forward composition and final
normalization).

Tensors are modelled as shape-annotated rational-valued functions; Python
dictionaries as association lists or functions; Python exceptions
(assertion failures, `ZeroDivisionError`, `KeyError`, unbounded recursion)
as `Option.none`.  External collaborators (the graph schema, random weight
initializers, the square root used by L2 normalization, dropout masking)
are parameters, following the module's documented interface boundary.
-/

set_option autoImplicit false

namespace HinSage

/-- A weight matrix: `rows × cols`, rational entries. -/
structure Mat where
  rows : ℕ
  cols : ℕ
  entry : ℕ → ℕ → ℚ

/-- A rank-3 tensor `(batch, num_positions, feature)`. -/
@[ext]
structure T3 where
  b : ℕ
  p : ℕ
  d : ℕ
  val : ℕ → ℕ → ℕ → ℚ

/-- A rank-4 tensor `(batch, num_positions, fanout, feature)`. -/
structure T4 where
  b : ℕ
  p : ℕ
  f : ℕ
  d : ℕ
  val : ℕ → ℕ → ℕ → ℕ → ℚ

def matZero : Mat := ⟨0, 0, fun _ _ => 0⟩

def t3Zero : T3 := ⟨0, 0, 0, fun _ _ _ => 0⟩

def t4Zero : T4 := ⟨0, 0, 0, 0, fun _ _ _ _ => 0⟩

/-- `K.mean(z, axis=2)`: mean-pool a rank-4 tensor over its fanout axis. -/
def kMeanAxis2 (z : T4) : T3 :=
  ⟨z.b, z.p, z.d, fun b p j => (∑ f ∈ Finset.range z.f, z.val b p f j) / (z.f : ℚ)⟩

/-- `K.dot(x, w)`: contract the last axis of a rank-3 tensor with a matrix. -/
def kDot (x : T3) (w : Mat) : T3 :=
  ⟨x.b, x.p, w.cols, fun b p j => ∑ i ∈ Finset.range x.d, x.val b p i * w.entry i j⟩

/-- Python `sum` over a list of equal-shaped tensors (elementwise). -/
def t3SumList (l : List T3) : T3 :=
  ⟨(l.headD t3Zero).b, (l.headD t3Zero).p, (l.headD t3Zero).d,
    fun b p j => (l.map (fun t => t.val b p j)).sum⟩

/-- Division of a tensor by a (nonzero) integer scalar. -/
def t3DivNat (t : T3) (n : ℕ) : T3 :=
  ⟨t.b, t.p, t.d, fun b p j => t.val b p j / (n : ℚ)⟩

/-- `K.concatenate([u, v], axis=2)`: concatenation along the feature axis. -/
def t3Concat2 (u v : T3) : T3 :=
  ⟨u.b, u.p, u.d + v.d, fun b p j => if j < u.d then u.val b p j else v.val b p (j - u.d)⟩

/-- Broadcast addition of a bias vector along the feature axis. -/
def t3AddBias (t : T3) (bias : ℕ → ℚ) : T3 :=
  ⟨t.b, t.p, t.d, fun b p j => t.val b p j + bias j⟩

/-- Elementwise application of a scalar function (activation, dropout mask). -/
def t3Map (g : ℚ → ℚ) (t : T3) : T3 :=
  ⟨t.b, t.p, t.d, fun b p j => g (t.val b p j)⟩

/-- Elementwise application of a scalar function to a rank-4 tensor. -/
def t4Map (g : ℚ → ℚ) (z : T4) : T4 :=
  ⟨z.b, z.p, z.f, z.d, fun b p f j => g (z.val b p f j)⟩

/-- The `relu` activation (`keras.activations.get("relu")`), on rationals. -/
def reluQ (x : ℚ) : ℚ := max x 0

/-- The `linear` activation (identity). -/
def linearQ (x : ℚ) : ℚ := x

/-- The state set by `MeanHinAggregator.__init__` (before `build`). -/
structure AggConfig where
  outputDim : ℕ
  halfOutputDim : ℕ
  hasBias : Bool
  act : ℚ → ℚ

/-- `MeanHinAggregator.__init__(output_dim, bias, act)`.  The constructor
asserts `output_dim % 2 == 0`; an assertion failure is modelled as `none`.
On success it records `half_output_dim = int(output_dim / 2)`. -/
def mkMeanHinAggregator (outputDim : ℕ) (bias : Bool) (act : ℚ → ℚ) : Option AggConfig :=
  if outputDim % 2 = 0 then some ⟨outputDim, outputDim / 2, bias, act⟩ else none

/-- The state of a `MeanHinAggregator` after `build`: the relation count
`nr` and the weight matrices. -/
structure AggParams where
  outputDim : ℕ
  halfOutputDim : ℕ
  hasBias : Bool
  act : ℚ → ℚ
  nr : ℕ
  wNeigh : List Mat
  wSelf : Mat
  biasVec : ℕ → ℚ

/-- `MeanHinAggregator.build(input_shape)`: sets `nr = len(input_shape) - 1`,
allocates one `(input_shape[1+r][3], half_output_dim)` weight matrix per
neighbour relation `r`, an `(input_shape[0][2], half_output_dim)` self weight,
and a zero-initialized bias vector.  The random glorot initializers are
external; they are passed in as `initN` / `initS`. -/
def aggBuild (cfg : AggConfig) (inputShape : List (List ℕ))
    (initN : ℕ → ℕ → ℕ → ℚ) (initS : ℕ → ℕ → ℚ) : AggParams :=
  let nr := inputShape.length - 1
  { outputDim := cfg.outputDim
    halfOutputDim := cfg.halfOutputDim
    hasBias := cfg.hasBias
    act := cfg.act
    nr := nr
    wNeigh := (List.range nr).map (fun r =>
      ⟨(inputShape.getD (1 + r) []).getD 3 0, cfg.halfOutputDim, initN r⟩)
    wSelf := ⟨(inputShape.getD 0 []).getD 2 0, cfg.halfOutputDim, initS⟩
    biasVec := fun _ => 0 }

/-- `MeanHinAggregator.call(x)` with `x = [self_tensor, neighbor_1, ...]`:

    neigh_means = [K.mean(z, axis=2) for z in x[1:]]
    from_self   = K.dot(x[0], self.w_self)
    from_neigh  = sum([K.dot(neigh_means[r], self.w_neigh[r]) for r in range(self.nr)]) / self.nr
    total       = K.concatenate([from_self, from_neigh], axis=2)
    return self.act(total + self.bias if self.has_bias else total)

When `self.nr = 0` the division `sum([]) / self.nr` is Python's `0 / 0` and
raises `ZeroDivisionError`; that failure is modelled as `none`. -/
def aggCall (a : AggParams) (x0 : T3) (xs : List T4) : Option T3 :=
  if a.nr = 0 then none
  else
    let neighMeans := xs.map kMeanAxis2
    let fromSelf := kDot x0 a.wSelf
    let fromNeigh := t3DivNat (t3SumList ((List.range a.nr).map
      (fun r => kDot (neighMeans.getD r t3Zero) (a.wNeigh.getD r matZero)))) a.nr
    let total := t3Concat2 fromSelf fromNeigh
    some (t3Map a.act (if a.hasBias then t3AddBias total a.biasVec else total))

/-- `MeanHinAggregator.compute_output_shape(input_shape)`:
`(input_shape[0][0], input_shape[0][1], output_dim)`. -/
def computeOutputShape (a : AggParams) (inputShape : List (List ℕ)) : ℕ × ℕ × ℕ :=
  ((inputShape.getD 0 []).getD 0 0, (inputShape.getD 0 []).getD 1 0, a.outputDim)

/-- The aggregation formula as the specification states it: the activation
applied to the concatenation, along the feature axis, of the transformed
self tensor and the averaged transformed mean-pooled relation tensors, with
the bias added iff bias is enabled; shaped `(batch, num_positions, output_dim)`. -/
def aggCallSpec (a : AggParams) (x0 : T3) (xs : List T4) : T3 :=
  ⟨x0.b, x0.p, a.outputDim, fun b p j =>
    a.act ((if j < a.halfOutputDim then
        ∑ i ∈ Finset.range x0.d, x0.val b p i * a.wSelf.entry i j
      else
        (∑ r ∈ Finset.range xs.length,
          ∑ i ∈ Finset.range (xs.getD r t4Zero).d,
            ((∑ f ∈ Finset.range (xs.getD r t4Zero).f, (xs.getD r t4Zero).val b p f i) /
              ((xs.getD r t4Zero).f : ℚ)) * (a.wNeigh.getD r matZero).entry i (j - a.halfOutputDim)) /
          (xs.length : ℚ)) +
      (if a.hasBias then a.biasVec j else 0))⟩

/-- Well-formedness of built aggregator parameters: one neighbour weight per
relation, and every weight matrix has `half_output_dim` output columns which
pair up to `output_dim`. -/
def AggWF (a : AggParams) : Prop :=
  a.wNeigh.length = a.nr ∧
  a.wSelf.cols = a.halfOutputDim ∧
  (∀ w ∈ a.wNeigh, w.cols = a.halfOutputDim) ∧
  a.halfOutputDim + a.halfOutputDim = a.outputDim

/-- A neighbourhood-tree entry `(node_type, neighbor_indices)`. -/
abbrev NTEntry : Type := String × List ℕ

/-- The filter test used by `eval_neigh_tree_per_layer`:
`li[1][-1] < len(input_tree)` — only the *last* neighbour index is compared
against the current tree length. -/
def keepTest (n : ℕ) (e : NTEntry) : Bool :=
  decide (e.2.getLastD 0 < n)

/-- One reduction step of `eval_neigh_tree_per_layer`:
`[li for li in input_tree if li[1][-1] < len(input_tree)]`.
Python's `li[1][-1]` raises `IndexError` on an entry with an empty neighbour
list; that failure is modelled as `none`. -/
def evalStep (t : List NTEntry) : Option (List NTEntry) :=
  if t.all (fun e => !e.2.isEmpty) then some (t.filter (keepTest t.length)) else none

/-- `eval_neigh_tree_per_layer(input_tree)`:

    reduced = [li for li in input_tree if li[1][-1] < len(input_tree)]
    return [input_tree] if len(reduced) == 0 else [input_tree] + eval_neigh_tree_per_layer(reduced)

The Python recursion need not terminate (e.g. on a self-referencing entry),
so the embedding carries explicit fuel; exhausted fuel is `none`. -/
def evalNeighTreePerLayer : ℕ → List NTEntry → Option (List (List NTEntry))
  | 0, _ => none
  | fuel + 1, t =>
    match evalStep t with
    | none => none
    | some reduced =>
      if reduced.isEmpty then some [t]
      else
        match evalNeighTreePerLayer fuel reduced with
        | none => none
        | some rest => some (t :: rest)

/-- Position offset of level `k` in a level-partitioned (breadth-first) tree:
the number of entries in levels `0, ..., k-1`. -/
def offAt (ls : List (List NTEntry)) (k : ℕ) : ℕ :=
  ((ls.take k).map List.length).sum

/-- A level-partitioned tree whose entries all still carry neighbour slots:
every level is nonempty, every entry has a nonempty neighbour-index list, and
the indices of a level-`k` entry point at (or, for the deepest level, beyond)
the level-`k+1` block. -/
abbrev GoodLevels (ls : List (List NTEntry)) : Prop :=
  ls ≠ [] ∧
  (∀ l ∈ ls, l ≠ []) ∧
  ∀ k, k < ls.length → ∀ e ∈ ls.getD k [], e.2 ≠ [] ∧
    ∀ j ∈ e.2, offAt ls (k + 1) ≤ j ∧ (k + 1 < ls.length → j < offAt ls (k + 2))

/-- Modelled from the spec: the shape of a `NeighborhoodTree` produced by the
external `schema.get_type_adjacency_list([root_type], n_layers)` collaborator
(not part of this module's sources) when serialized breadth-first — entry 0 the
root, levels stored contiguously in depth order, every entry of depth
`< n_layers` pointing into the next level's block, and the deepest level
(`n_layers` hops) consisting of leaf entries with empty neighbour lists.
`ls` lists the levels; the flattened tree is `ls.join`. -/
abbrev FullSchema (ls : List (List NTEntry)) : Prop :=
  2 ≤ ls.length ∧
  (∀ l ∈ ls, l ≠ []) ∧
  (∀ k, k < ls.length - 1 → ∀ e ∈ ls.getD k [], e.2 ≠ [] ∧
    ∀ j ∈ e.2, offAt ls (k + 1) ≤ j ∧ j < offAt ls (k + 2)) ∧
  (∀ e ∈ ls.getD (ls.length - 1) [], e.2 = [])

/-- The expected layer sequence for a level-partitioned tree: the flattened
tree, then the tree with its deepest level peeled, and so on down to the root
level alone. -/
def layersOf (ls : List (List NTEntry)) : List (List NTEntry) :=
  (List.range ls.length).map (fun i => (ls.take (ls.length - i)).flatten)

/-- Parent-first, children-after-parent ordering: every neighbour index of
entry `i` points at a later, in-range entry. -/
abbrev parentFirstOK (t : List NTEntry) : Prop :=
  ∀ i, i < t.length → ∀ j ∈ (t.getD i ("", [])).2, i < j ∧ j < t.length

/-- `ds` assigns a hop-depth to every tree position: the root has depth 0 and
every neighbour of a depth-`k` entry has depth `k + 1`. -/
abbrev DepthAssign (t : List NTEntry) (ds : List ℕ) : Prop :=
  ds.length = t.length ∧
  ds.getD 0 0 = 0 ∧
  ∀ q, q < t.length → ∀ j ∈ (t.getD q ("", [])).2, ds.getD j 0 = ds.getD q 0 + 1

/-- Every non-root position is some entry's neighbour slot. -/
abbrev ReachAll (t : List NTEntry) : Prop :=
  ∀ p, p < t.length → 0 < p → ∃ q, q < t.length ∧ p ∈ (t.getD q ("", [])).2

/-- Exactly the entries at depth `nLayers` are leaves. -/
abbrev LeavesAt (t : List NTEntry) (ds : List ℕ) (nLayers : ℕ) : Prop :=
  ∀ q, q < t.length → ((t.getD q ("", [])).2 = [] ↔ ds.getD q 0 = nLayers)

/-- `HinSAGE._input_shapes`'s inner `get_shape(stree, cnode, level)`: builds a
Python dict — modelled as `ℕ → Option (ℕ × ℕ)` — mapping every position in
the subtree rooted at `cnode` to `(neighbor_sizes[level], input_dims[type])`:

    adj = stree[cnode][1]
    size_dict = {cnode: (neighbor_sizes[level], input_dims[stree[cnode][0]])}
    if len(adj) > 0:
        size_dict.update({k: s for a in adj for k, s in get_shape(stree, a, level + 1).items()})
    return size_dict

`dict.update` lets later children overwrite earlier ones, and the children
overwrite the base entry.  The Python recursion follows the adjacency indices
and need not terminate on malformed trees, hence the explicit fuel (`none`
models nontermination). -/
def getShape (stree : List NTEntry) (inputDims : String → ℕ) (sizes : List ℕ) :
    ℕ → ℕ → ℕ → Option (ℕ → Option (ℕ × ℕ))
  | 0, _, _ => none
  | fuel + 1, cnode, level =>
    (stree.getD cnode ("", [])).2.foldlM
      (fun acc a => (getShape stree inputDims sizes fuel a (level + 1)).map
        (fun da => fun p => (da p).elim (acc p) some))
      (fun p => if p = cnode then
          some (sizes.getD level 0, inputDims (stree.getD cnode ("", [])).1)
        else none)

/-- `HinSAGE._input_shapes()`:

    neighbor_sizes = list(it.accumulate([1] + self.n_samples, op.mul))
    input_shapes = get_shape(self.subtree_schema, 0)
    return [input_shapes[ii] for ii in range(len(self.subtree_schema))]

A position missing from the dict (`KeyError`) and a non-terminating
`get_shape` are both modelled as `none`. -/
def inputShapes (stree : List NTEntry) (inputDims : String → ℕ) (nSamples : List ℕ) :
    Option (List (ℕ × ℕ)) := do
  let sizes := List.scanl (· * ·) 1 nSamples
  let d ← getShape stree inputDims sizes (stree.length + 1) 0 0
  (List.range stree.length).mapM d

/-- Position `p` is reachable from position `c` along neighbour indices. -/
inductive Reaches (stree : List NTEntry) : ℕ → ℕ → Prop
  | refl (c : ℕ) : Reaches stree c c
  | step {c a p : ℕ} (ha : a ∈ (stree.getD c ("", [])).2) (h : Reaches stree a p) :
      Reaches stree c p

/-- Key deduplication with Python-dict semantics (first occurrence order),
used for `{k: dim for k, _ in tree}`. -/
def pyDedupKeysAux (seen : List String) : List String → List String
  | [] => []
  | a :: l => if a ∈ seen then pyDedupKeysAux seen l else a :: pyDedupKeysAux (a :: seen) l

def pyDedupKeys (l : List String) : List String := pyDedupKeysAux [] l

/-- A `MeanHinAggregator` *instance*: its constructor state, its private
random-initializer streams (external), and its lazily built weights —
`built = none` until the first shape-bearing call. -/
structure AggInst where
  cfg : AggConfig
  initN : ℕ → ℕ → ℕ → ℚ
  initS : ℕ → ℕ → ℚ
  built : Option AggParams

/-- Keras `Layer.__call__` builds the layer exactly once: if the weights are
already allocated the instance is returned unchanged, otherwise `build` runs
on the given input shapes. -/
def buildIfNeeded (inst : AggInst) (ishape : List (List ℕ)) : AggInst :=
  match inst.built with
  | some _ => inst
  | none => { inst with built := some (aggBuild inst.cfg ishape inst.initN inst.initS) }

/-- `HinSAGE.__init__`'s per-position depth list:

    depth = [n_layers + 1 - sum([1 for li in [schema] + neigh_trees if i < len(li)])
             for i in range(len(schema))] -/
def hinDepths (nLayers : ℕ) (schema : List NTEntry)
    (neighTrees : List (List NTEntry)) : List ℕ :=
  (List.range schema.length).map (fun i =>
    nLayers + 1 - ((schema :: neighTrees).countP (fun li => decide (i < li.length))))

/-- `HinSAGE.__init__`'s per-layer Dims list: layer 0 is the input dims dict;
layer `k + 1` is `output_dims[k]` itself when it is a dict, else the scalar
broadcast `{node_type: dim}` over the node types of `neigh_trees[k]`. -/
def hinDims (inputDim : List (String × ℕ)) (outputDims : List (ℕ ⊕ List (String × ℕ)))
    (neighTrees : List (List NTEntry)) : List (List (String × ℕ)) :=
  inputDim :: (List.range outputDims.length).map (fun layer =>
    match outputDims.getD layer (Sum.inl 0) with
    | Sum.inl n => (pyDedupKeys ((neighTrees.getD layer []).map Prod.fst)).map (fun k => (k, n))
    | Sum.inr dct => dct)

/-- `HinSAGE.__init__`'s aggregator table:

    self._aggs = [{node_type: aggregator(output_dim, bias=self.bias,
                     act="relu" if layer < self.n_layers - 1 else "linear")
                   for node_type, output_dim in self.dims[layer + 1].items()}
                  for layer in range(self.n_layers)]

Each aggregator constructor can fail (odd `output_dim`), failing the whole
construction. -/
def hinAggs (nLayers : ℕ) (dims : List (List (String × ℕ))) (bias : Bool)
    (inits : ℕ → String → (ℕ → ℕ → ℕ → ℚ) × (ℕ → ℕ → ℚ)) :
    Option (List (List (String × AggInst))) :=
  (List.range nLayers).mapM (fun layer =>
    (dims.getD (layer + 1) []).mapM (fun td =>
      (mkMeanHinAggregator td.2 bias (if layer < nLayers - 1 then reluQ else linearQ)).map
        (fun cfg => (td.1, AggInst.mk cfg (inits layer td.1).1 (inits layer td.1).2 none))))

/-- The state of a constructed `HinSAGE` tree composer. -/
structure HinModel where
  nLayers : ℕ
  nSamples : List ℕ
  biasFlag : Bool
  dropV : ℚ → ℚ
  sqrtFn : ℚ → ℚ
  subtreeSchema : List NTEntry
  inputDims : List (String × ℕ)
  neighTrees : List (List NTEntry)
  depths : List ℕ
  dims : List (List (String × ℕ))
  aggsB : List (List (String × AggInst))

/-- `HinSAGE.__init__(output_dims, n_samples, input_neighbor_tree, input_dim,
bias, dropout)` along the explicitly-supplied-tree path (the mapper/schema
collaborators are external).  The `assert len(n_samples) == len(output_dims)`
fires before anything is derived; an assertion failure, a non-terminating
tree evaluation and an aggregator-constructor failure are `none`.  `dropV`
models the external dropout mask, `sqrtFn` the external square root used by
`K.l2_normalize`, and `inits` the per-(layer, type) random initializers. -/
def mkHinSAGE (outputDims : List (ℕ ⊕ List (String × ℕ))) (nSamples : List ℕ)
    (inputNeighborTree : List NTEntry) (inputDim : List (String × ℕ)) (bias : Bool)
    (dropV sqrtFn : ℚ → ℚ)
    (inits : ℕ → String → (ℕ → ℕ → ℕ → ℚ) × (ℕ → ℕ → ℚ)) : Option HinModel :=
  if nSamples.length = outputDims.length then
    (evalNeighTreePerLayer
        ((inputNeighborTree.filter (fun li => !li.2.isEmpty)).length + 1)
        (inputNeighborTree.filter (fun li => !li.2.isEmpty))).bind (fun neighTrees =>
      (hinAggs nSamples.length (hinDims inputDim outputDims neighTrees) bias inits).map
        (fun aggsB =>
          ⟨nSamples.length, nSamples, bias, dropV, sqrtFn, inputNeighborTree, inputDim,
            neighTrees, hinDepths nSamples.length inputNeighborTree neighTrees,
            hinDims inputDim outputDims neighTrees, aggsB⟩))
  else none

def aggParamsZero : AggParams := ⟨0, 0, false, linearQ, 0, [], matZero, fun _ => 0⟩

def aggInstZero : AggInst := ⟨⟨0, 0, false, linearQ⟩, fun _ _ _ => 0, fun _ _ => 0, none⟩

/-- The reshape target recorded per `(layer, parent position, relation)` by
`HinSAGE.__init__`: `Reshape((-1, n_samples[depth[i]], dims[layer][type of
schema[neigh_index]]))`. -/
def reshapeSpec (m : HinModel) (layer i nIdx : ℕ) : ℕ × ℕ :=
  (m.nSamples.getD (m.depths.getD i 0) 0,
   ((m.dims.getD layer []).lookup (m.subtreeSchema.getD nIdx ("", [])).1).getD 0)

/-- Keras `Reshape((-1, fanout, dim))` on a rank-3 tensor `(batch, P, D)`:
row-major regrouping of each batch row into `(P * D / (fanout * dim), fanout,
dim)`. -/
def reshapeT4 (t : T3) (fanout dim : ℕ) : T4 :=
  ⟨t.b, if fanout * dim = 0 then 0 else t.p * t.d / (fanout * dim), fanout, dim,
   fun b q f j => t.val b ((q * (fanout * dim) + f * dim + j) / t.d)
     ((q * (fanout * dim) + f * dim + j) % t.d)⟩

/-- The dropout-masked self tensor handed to the aggregator for a position
(`Dropout(self.dropout)(x[i])`). -/
def posSelf (m : HinModel) (pos : ℕ) (x : List T3) : T3 :=
  t3Map m.dropV (x.getD pos t3Zero)

/-- The reshaped, dropout-masked neighbour tensors for a position
(`[Dropout(self.dropout)(ne) for ne in neigh_list(i, neigh_indices)]`). -/
def posNeighs (m : HinModel) (layer pos : ℕ) (x : List T3) (e : NTEntry) : List T4 :=
  e.2.map (fun nIdx =>
    t4Map m.dropV (reshapeT4 (x.getD nIdx t3Zero)
      (reshapeSpec m layer pos nIdx).1 (reshapeSpec m layer pos nIdx).2))

/-- The Keras input-shape list seen by the aggregator's lazy `build` at a
position: the rank-3 self shape followed by the rank-4 neighbour shapes. -/
def posShape (m : HinModel) (layer pos : ℕ) (x : List T3) (e : NTEntry) : List (List ℕ) :=
  [(posSelf m pos x).b, (posSelf m pos x).p, (posSelf m pos x).d] ::
    (posNeighs m layer pos x e).map (fun z => [z.b, z.p, z.f, z.d])

/-- Replace the instance stored under `key` (Python mutates the shared
instance in place; the dict's keys are unchanged). -/
def updateTable (table : List (String × AggInst)) (key : String) (inst : AggInst) :
    List (String × AggInst) :=
  table.map (fun kv => if kv.1 = key then (key, inst) else kv)

/-- `x_next(agg)` evaluated position by position, threading the per-layer
aggregator table (instances mutate on first build):

    [agg[node_type]([Dropout(...)(x[i]), *[Dropout(...)(ne) for ne in neigh_list(i, neigh_indices)]])
     for i, (node_type, neigh_indices) in enumerate(self.neigh_trees[layer])]

A missing dict key (`KeyError`) or an aggregator failure aborts the call
(`none`), keeping the instance mutations made so far. -/
def applyPositions (m : HinModel) (layer : ℕ) (x : List T3) :
    ℕ → List NTEntry → List (String × AggInst) →
    List (String × AggInst) × Option (List T3)
  | _, [], table => (table, some [])
  | i, e :: rest, table =>
    match table.lookup e.1 with
    | none => (table, none)
    | some inst =>
      match aggCall ((buildIfNeeded inst (posShape m layer i x e)).built.getD aggParamsZero)
          (posSelf m i x) (posNeighs m layer i x e) with
      | none => (updateTable table e.1 (buildIfNeeded inst (posShape m layer i x e)), none)
      | some o =>
        match applyPositions m layer x (i + 1) rest
            (updateTable table e.1 (buildIfNeeded inst (posShape m layer i x e))) with
        | (table3, some os) => (table3, some (o :: os))
        | (table3, none) => (table3, none)

/-- One layer of the forward composition: `x_next(self._aggs[layer])`. -/
def applyLayer (m : HinModel) (layer : ℕ) (x : List T3) :
    List (String × AggInst) × Option (List T3) :=
  applyPositions m layer x 0 (m.neighTrees.getD layer []) (m.aggsB.getD layer [])

/-- Store a layer's (possibly mutated) aggregator table back in the model. -/
def setLayerTable (m : HinModel) (layer : ℕ) (tbl : List (String × AggInst)) : HinModel :=
  { m with aggsB := m.aggsB.set layer tbl }

/-- `compose_layers(x, layer)` with the remaining layer count as structural
fuel (`n_layers - layer` more recursive steps remain, exactly as in the
code's `if layer < self.n_layers` recursion). -/
def composeLayersAux : ℕ → HinModel → List T3 → ℕ → HinModel × Option (List T3)
  | 0, m, x, _ => (m, some x)
  | fuel + 1, m, x, layer =>
    match applyLayer m layer x with
    | (tbl, none) => (setLayerTable m layer tbl, none)
    | (tbl, some x2) => composeLayersAux fuel (setLayerTable m layer tbl) x2 (layer + 1)

/-- `compose_layers(x, layer) = compose_layers(x_next(...), layer + 1) if
layer < self.n_layers else x`. -/
def composeLayers (m : HinModel) (x : List T3) (layer : ℕ) : HinModel × Option (List T3) :=
  composeLayersAux (m.nLayers - layer) m x layer

/-- `K.l2_normalize(x, axis=2)`: divide each feature row by the root of its
sum of squares; the square root is the tensor engine's, supplied externally
as `sqrtFn`. -/
def l2normalize (sqrtFn : ℚ → ℚ) (t : T3) : T3 :=
  ⟨t.b, t.p, t.d, fun b p j => t.val b p j / sqrtFn (∑ k ∈ Finset.range t.d, t.val b p k ^ 2)⟩

/-- `HinSAGE.__call__(x)`:

    x = compose_layers(x, 0)
    return self._normalization(x[0]) if len(x) == 1 else [self._normalization(xi) for xi in x]

The returned model carries the instance mutations (lazy weight builds). -/
def hinApply (m : HinModel) (x : List T3) : HinModel × Option (T3 ⊕ List T3) :=
  match composeLayers m x 0 with
  | (m2, none) => (m2, none)
  | (m2, some out) =>
    (m2, some (if out.length = 1 then Sum.inl (l2normalize m.sqrtFn (out.getD 0 t3Zero))
      else Sum.inr (out.map (l2normalize m.sqrtFn))))

/-- Observation helper for the weight-sharing invariant: the aggregator
table as it stands when position `k` of a layer comes up in a forward call —
the table after the first `k` positions have been processed. -/
def tableAfter (m : HinModel) (layer : ℕ) (x : List T3) (k : ℕ) : List (String × AggInst) :=
  (applyPositions m layer x 0 ((m.neighTrees.getD layer []).take k) (m.aggsB.getD layer [])).1

/-- Observation helper: the aggregator instance (with weights built on first
use) that processes position `k` of a layer in a forward call. -/
def instUsedAt (m : HinModel) (layer : ℕ) (x : List T3) (k : ℕ) : AggInst :=
  buildIfNeeded
    (((tableAfter m layer x k).lookup
      ((m.neighTrees.getD layer []).getD k ("", [])).1).getD aggInstZero)
    (posShape m layer k x ((m.neighTrees.getD layer []).getD k ("", [])))

/-- The composer state produced by `mkHinSAGE` for a concrete two-layer
single-type configuration (`output_dims = [4, 2]`, `n_samples = [2, 2]`,
a paper-cites-paper chain schema, input feature dimension 3); used to
instantiate the construction theorems. -/
def egModel : HinModel :=
  ⟨2, [2, 2], false, linearQ, linearQ,
   [("paper", [1]), ("paper", [2]), ("paper", [])], [("paper", 3)],
   [[("paper", [1]), ("paper", [2])], [("paper", [1])]],
   [0, 1, 2],
   [[("paper", 3)], [("paper", 4)], [("paper", 2)]],
   [[("paper", ⟨⟨4, 2, false, reluQ⟩, fun _ _ _ => 0, fun _ _ => 0, none⟩)],
    [("paper", ⟨⟨2, 1, false, linearQ⟩, fun _ _ _ => 0, fun _ _ => 0, none⟩)]]⟩

end HinSage

namespace HinSage

theorem list_sum_map_range {α : Type} [AddCommMonoid α] (g : ℕ → α) (n : ℕ) :
    (((List.range n).map g).sum) = ∑ r ∈ Finset.range n, g r := by
  induction n with
  | zero => simp
  | succ k ih => rw [List.range_succ, Finset.sum_range_succ, List.map_append, List.sum_append, ih]; simp

theorem getD_map_of_lt {α β : Type} (l : List α) (g : α → β) (r : ℕ) (hr : r < l.length)
    (d1 : β) (d2 : α) : (l.map g).getD r d1 = g (l.getD r d2) := by
  rw [List.getD_eq_getElem l d2 hr, List.getD_eq_getElem (l.map g) d1 (by simpa using hr)]
  simp

theorem getD_mem_of_lt {α : Type} (l : List α) (r : ℕ) (hr : r < l.length) (d : α) :
    l.getD r d ∈ l := by
  rw [List.getD_eq_getElem l d hr]
  exact List.getElem_mem hr

/-- **C1.** `MeanHinAggregator.call` on input `[self, neighbor_1, ..., neighbor_R]`
with `R ≥ 1` returns the activation of the feature-axis concatenation of the
self transform and the relation-count-averaged neighbour transform, with the
bias added iff bias is enabled, and the output tensor has shape
`(batch, num_positions, output_dim)`; `compute_output_shape` reports the same
shape. -/
theorem aggregator_call_correct (a : AggParams) (x0 : T3) (xs : List T4)
    (hR : 1 ≤ xs.length) (hnr : a.nr = xs.length) (hwf : AggWF a)
    (inputShape : List (List ℕ)) :
    aggCall a x0 xs = some (aggCallSpec a x0 xs) ∧
    (aggCallSpec a x0 xs).b = x0.b ∧
    (aggCallSpec a x0 xs).p = x0.p ∧
    (aggCallSpec a x0 xs).d = a.outputDim ∧
    computeOutputShape a inputShape =
      ((inputShape.getD 0 []).getD 0 0, (inputShape.getD 0 []).getD 1 0, a.outputDim) := by
  obtain ⟨hlen, hself, hneigh, hhalf⟩ := hwf
  refine ⟨?_, rfl, rfl, rfl, rfl⟩
  have hnr0 : a.nr ≠ 0 := by omega
  rw [aggCall, if_neg hnr0]
  dsimp only
  refine congrArg some ?_
  have hd : ((List.range a.nr).map (fun r =>
      kDot ((xs.map kMeanAxis2).getD r t3Zero) (a.wNeigh.getD r matZero))).headD t3Zero =
      kDot ((xs.map kMeanAxis2).getD 0 t3Zero) (a.wNeigh.getD 0 matZero) := by
    obtain ⟨k, hk⟩ : ∃ k, a.nr = k + 1 := ⟨a.nr - 1, by omega⟩
    rw [hk, List.range_succ_eq_map]
    simp
  have hcols0 : (a.wNeigh.getD 0 matZero).cols = a.halfOutputDim := by
    refine hneigh _ (getD_mem_of_lt a.wNeigh 0 (by omega) matZero)
  have hshape : (t3Concat2 (kDot x0 a.wSelf)
      (t3DivNat (t3SumList ((List.range a.nr).map (fun r =>
        kDot ((xs.map kMeanAxis2).getD r t3Zero) (a.wNeigh.getD r matZero)))) a.nr)).d
      = a.outputDim := by
    show a.wSelf.cols + (((List.range a.nr).map (fun r =>
        kDot ((xs.map kMeanAxis2).getD r t3Zero) (a.wNeigh.getD r matZero))).headD t3Zero).d
        = a.outputDim
    rw [hd]
    show a.wSelf.cols + (a.wNeigh.getD 0 matZero).cols = a.outputDim
    rw [hself, hcols0]
    exact hhalf
  have key : ∀ z b p : ℕ, (t3DivNat (t3SumList ((List.range a.nr).map (fun r =>
      kDot ((xs.map kMeanAxis2).getD r t3Zero) (a.wNeigh.getD r matZero)))) a.nr).val b p z
      = (∑ r ∈ Finset.range xs.length, ∑ i ∈ Finset.range (xs.getD r t4Zero).d,
          ((∑ f ∈ Finset.range (xs.getD r t4Zero).f, (xs.getD r t4Zero).val b p f i) /
            ((xs.getD r t4Zero).f : ℚ)) * (a.wNeigh.getD r matZero).entry i z) /
          (xs.length : ℚ) := by
    intro z b p
    show (((List.range a.nr).map (fun r =>
        kDot ((xs.map kMeanAxis2).getD r t3Zero) (a.wNeigh.getD r matZero))).map
          (fun t => t.val b p z)).sum / (a.nr : ℚ) = _
    rw [List.map_map, list_sum_map_range, hnr]
    refine congrArg (fun q : ℚ => q / (xs.length : ℚ)) ?_
    refine Finset.sum_congr rfl fun r hr => ?_
    rw [Function.comp_apply, getD_map_of_lt xs kMeanAxis2 r (Finset.mem_range.mp hr) t3Zero t4Zero]
    rfl
  cases hb : a.hasBias with
  | false =>
    show t3Map a.act (t3Concat2 (kDot x0 a.wSelf) _) = aggCallSpec a x0 xs
    refine T3.ext rfl rfl hshape (funext fun b => funext fun p => funext fun j => ?_)
    refine congrArg a.act ?_
    show (if j < a.wSelf.cols then (kDot x0 a.wSelf).val b p j
        else (t3DivNat (t3SumList ((List.range a.nr).map (fun r =>
          kDot ((xs.map kMeanAxis2).getD r t3Zero) (a.wNeigh.getD r matZero)))) a.nr).val b p
            (j - a.wSelf.cols)) = _
    rw [hself, key, hb, if_neg Bool.false_ne_true, add_zero]
    rfl
  | true =>
    show t3Map a.act (t3AddBias (t3Concat2 (kDot x0 a.wSelf) _) a.biasVec) = aggCallSpec a x0 xs
    refine T3.ext rfl rfl hshape (funext fun b => funext fun p => funext fun j => ?_)
    refine congrArg a.act ?_
    show (if j < a.wSelf.cols then (kDot x0 a.wSelf).val b p j
        else (t3DivNat (t3SumList ((List.range a.nr).map (fun r =>
          kDot ((xs.map kMeanAxis2).getD r t3Zero) (a.wNeigh.getD r matZero)))) a.nr).val b p
            (j - a.wSelf.cols)) + a.biasVec j = _
    rw [hself, key, hb, if_pos rfl]
    rfl

theorem headD_map_range {α : Type} (g : ℕ → α) (n : ℕ) (hn : n ≠ 0) (dflt : α) :
    ((List.range n).map g).headD dflt = g 0 := by
  obtain ⟨k, rfl⟩ : ∃ k, n = k + 1 := ⟨n - 1, by omega⟩
  rw [List.range_succ_eq_map]
  simp

theorem t3Map_if_bias_d (g : ℚ → ℚ) (c : Bool) (X : T3) (v : ℕ → ℚ) :
    (t3Map g (if c = true then t3AddBias X v else X)).d = X.d := by
  cases c <;> rfl

/-- **C5.** An aggregator constructed with an even `output_dim` `d` records
`half_output_dim = d / 2`; after `build` the self weight matrix and every
neighbour relation weight matrix have exactly `d / 2` output columns, the two
halves concatenate to exactly `d` features, and any successful `call` output
has feature dimension `d`. -/
theorem aggregator_even_split (d : ℕ) (bias : Bool) (act : ℚ → ℚ) (cfg : AggConfig)
    (hmk : mkMeanHinAggregator d bias act = some cfg)
    (ishape : List (List ℕ)) (initN : ℕ → ℕ → ℕ → ℚ) (initS : ℕ → ℕ → ℚ) :
    cfg.halfOutputDim = d / 2 ∧
    d / 2 + d / 2 = d ∧
    (aggBuild cfg ishape initN initS).wSelf.cols = d / 2 ∧
    (∀ w ∈ (aggBuild cfg ishape initN initS).wNeigh, w.cols = d / 2) ∧
    (∀ x0 xs t, aggCall (aggBuild cfg ishape initN initS) x0 xs = some t → t.d = d) := by
  by_cases he : d % 2 = 0
  case neg => rw [mkMeanHinAggregator, if_neg he] at hmk; cases hmk
  rw [mkMeanHinAggregator, if_pos he] at hmk
  obtain rfl := Option.some.inj hmk
  refine ⟨rfl, by omega, rfl, ?_, ?_⟩
  · intro w hw
    simp only [aggBuild, List.mem_map] at hw
    obtain ⟨r, _, rfl⟩ := hw
    rfl
  · intro x0 xs t hcall
    rw [aggCall] at hcall
    by_cases hnr : (aggBuild ⟨d, d / 2, bias, act⟩ ishape initN initS).nr = 0
    · rw [if_pos hnr] at hcall; cases hcall
    · rw [if_neg hnr] at hcall
      have ht := Option.some.inj hcall
      have hpos : 0 < (aggBuild ⟨d, d / 2, bias, act⟩ ishape initN initS).nr :=
        Nat.pos_of_ne_zero hnr
      rw [← ht, t3Map_if_bias_d]
      show (aggBuild ⟨d, d / 2, bias, act⟩ ishape initN initS).wSelf.cols +
        (((List.range (aggBuild ⟨d, d / 2, bias, act⟩ ishape initN initS).nr).map (fun r =>
          kDot ((xs.map kMeanAxis2).getD r t3Zero)
            ((aggBuild ⟨d, d / 2, bias, act⟩ ishape initN initS).wNeigh.getD r matZero))).headD
              t3Zero).d = d
      rw [headD_map_range _ _ hnr t3Zero]
      show d / 2 + ((aggBuild ⟨d, d / 2, bias, act⟩ ishape initN initS).wNeigh.getD 0 matZero).cols = d
      have hc0 : ((aggBuild ⟨d, d / 2, bias, act⟩ ishape initN initS).wNeigh.getD 0 matZero).cols
          = d / 2 := by
        show (((List.range (aggBuild ⟨d, d / 2, bias, act⟩ ishape initN initS).nr).map (fun r =>
          (⟨(ishape.getD (1 + r) []).getD 3 0, d / 2, initN r⟩ : Mat))).getD 0 matZero).cols = d / 2
        rw [getD_map_of_lt (List.range (aggBuild ⟨d, d / 2, bias, act⟩ ishape initN initS).nr) _ 0
          (by simpa using hpos) matZero 0]
      rw [hc0]
      omega

/-- **C5 witness.** The theorem applied at `d = 4` with a concrete shape list. -/
theorem aggregator_even_split_witness :
    mkMeanHinAggregator 4 false linearQ = some ⟨4, 2, false, linearQ⟩ ∧
    (aggBuild ⟨4, 2, false, linearQ⟩ [[2, 1, 3], [2, 1, 5, 3]] (fun _ _ _ => 0)
      (fun _ _ => 0)).wSelf.cols = 4 / 2 := by
  refine ⟨by rw [mkMeanHinAggregator]; rfl, ?_⟩
  exact (aggregator_even_split 4 false linearQ ⟨4, 2, false, linearQ⟩
    (by rw [mkMeanHinAggregator]; rfl) [[2, 1, 3], [2, 1, 5, 3]]
    (fun _ _ _ => 0) (fun _ _ => 0)).2.2.1

/-- **C9.** When `build` receives an input-shape list of length 1 (a self
tensor and no neighbour-relation slots) it sets the relation count `nr` to 0,
and every subsequent `call` performs Python's `sum([]) / 0` — a
`ZeroDivisionError`, modelled as `none` — for every input; no guard handles
the zero-relation case. -/
theorem aggregator_zero_relations (cfg : AggConfig) (s0 : List ℕ)
    (initN : ℕ → ℕ → ℕ → ℚ) (initS : ℕ → ℕ → ℚ) :
    (aggBuild cfg [s0] initN initS).nr = 0 ∧
    ∀ x0 xs, aggCall (aggBuild cfg [s0] initN initS) x0 xs = none := by
  refine ⟨rfl, fun x0 xs => rfl⟩

theorem getLastD_mem {l : List ℕ} (h : l ≠ []) (d : ℕ) : l.getLastD d ∈ l := by
  cases l with
  | nil => exact absurd rfl h
  | cons a tl => rw [List.getLastD_cons]; exact List.getLastD_mem_cons tl a

theorem offAt_le (ls : List (List NTEntry)) {a b : ℕ} (h : a ≤ b) :
    offAt ls a ≤ offAt ls b := by
  obtain ⟨c, rfl⟩ : ∃ c, b = a + c := ⟨b - a, by omega⟩
  rw [offAt, offAt, List.take_add, List.map_append, List.sum_append]
  exact Nat.le_add_right _ _

theorem offAt_length (ls : List (List NTEntry)) : offAt ls ls.length = ls.flatten.length := by
  rw [offAt, List.take_length, List.length_flatten]

theorem offAt_of_le (ls : List (List NTEntry)) (k : ℕ) (h : ls.length ≤ k) :
    offAt ls k = ls.flatten.length := by
  rw [offAt, List.take_of_length_le h, List.length_flatten]

theorem offAt_take (ls : List (List NTEntry)) (m k : ℕ) (hk : k ≤ m) :
    offAt (ls.take m) k = offAt ls k := by
  rw [offAt, offAt, List.take_take, Nat.min_eq_left hk]

theorem offAt_dropLast (ls : List (List NTEntry)) (k : ℕ) (hk : k ≤ ls.length - 1) :
    offAt ls.dropLast k = offAt ls k := by
  rw [List.dropLast_eq_take, offAt_take ls _ k hk]

theorem flatten_take_length (ls : List (List NTEntry)) (k : ℕ) :
    ((ls.take k).flatten).length = offAt ls k := by
  rw [List.length_flatten, offAt]

theorem mem_flatten_level {e : NTEntry} {ls : List (List NTEntry)} (h : e ∈ ls.flatten) :
    ∃ k, k < ls.length ∧ e ∈ ls.getD k [] := by
  rw [List.mem_flatten] at h
  obtain ⟨l, hl, hel⟩ := h
  obtain ⟨k, hk, rfl⟩ := List.mem_iff_getElem.mp hl
  exact ⟨k, hk, by rw [List.getD_eq_getElem _ _ hk]; exact hel⟩

theorem getD_dropLast (ls : List (List NTEntry)) (k : ℕ) (hk : k < ls.length - 1) :
    ls.dropLast.getD k [] = ls.getD k [] := by
  have h1 : k < ls.dropLast.length := by rw [List.length_dropLast]; omega
  have h2 : k < ls.length := by omega
  rw [List.getD_eq_getElem _ _ h1, List.getD_eq_getElem _ _ h2, List.getElem_dropLast]

theorem getLastD_eq_getD {α : Type} (l : List α) (d : α) :
    l.getLastD d = l.getD (l.length - 1) d := by
  rw [List.getLastD_eq_getLast?, List.getLast?_eq_getElem?, List.getD_eq_getElem?_getD]

theorem flatten_ne_nil_of_goodLevels {ls : List (List NTEntry)} (h : GoodLevels ls) :
    ls.flatten ≠ [] := by
  intro hnil
  rw [List.flatten_eq_nil_iff] at hnil
  obtain ⟨l, hl⟩ := List.exists_mem_of_ne_nil ls h.1
  exact h.2.1 l hl (hnil l hl)

theorem length_le_length_flatten (ls : List (List NTEntry)) (h : ∀ l ∈ ls, l ≠ []) :
    ls.length ≤ ls.flatten.length := by
  induction ls with
  | nil => simp
  | cons a tl ih =>
    rw [List.flatten_cons, List.length_append, List.length_cons]
    have ha : 1 ≤ a.length := List.length_pos.mpr (h a (List.mem_cons_self a tl))
    have htl := ih (fun l hl => h l (List.mem_cons_of_mem a hl))
    omega

theorem goodLevels_dropLast {ls : List (List NTEntry)} (h : GoodLevels ls)
    (h2 : 2 ≤ ls.length) : GoodLevels ls.dropLast := by
  obtain ⟨hne, hlev, hbound⟩ := h
  have hlen : ls.dropLast.length = ls.length - 1 := List.length_dropLast ls
  refine ⟨?_, ?_, ?_⟩
  · intro hnil
    have := congrArg List.length hnil
    rw [hlen] at this
    simp at this
    omega
  · intro l hl
    exact hlev l ((List.dropLast_prefix ls).subset hl)
  · intro k hk e he
    rw [hlen] at hk
    rw [getD_dropLast ls k hk] at he
    obtain ⟨hene, hj⟩ := hbound k (by omega) e he
    refine ⟨hene, fun j hjm => ?_⟩
    obtain ⟨hj1, hj2⟩ := hj j hjm
    refine ⟨by rw [offAt_dropLast ls (k + 1) (by omega)]; exact hj1, fun hk1 => ?_⟩
    rw [hlen] at hk1
    rw [offAt_dropLast ls (k + 2) (by omega)]
    exact hj2 (by omega)

theorem goodLevels_evalStep (ls : List (List NTEntry)) (h : GoodLevels ls) :
    evalStep ls.flatten = some ls.dropLast.flatten := by
  obtain ⟨hne, hlev, hbound⟩ := h
  have hpos : 0 < ls.length := List.length_pos.mpr hne
  have hall : ∀ e ∈ ls.flatten, e.2 ≠ [] := by
    intro e he
    obtain ⟨k, hk, hek⟩ := mem_flatten_level he
    exact (hbound k hk e hek).1
  rw [evalStep, if_pos (by rw [List.all_eq_true]; intro e he; simpa using hall e he)]
  refine congrArg some ?_
  have hsplit : ls.flatten = ls.dropLast.flatten ++ ls.getLast hne := by
    conv_lhs => rw [← List.dropLast_append_getLast hne]
    rw [List.flatten_append]
    simp
  have hN : ls.flatten.length = offAt ls ls.length := (offAt_length ls).symm
  rw [hN]
  conv_lhs => rw [hsplit]
  rw [List.filter_append]
  have h1 : ls.dropLast.flatten.filter (keepTest (offAt ls ls.length)) = ls.dropLast.flatten := by
    rw [List.filter_eq_self]
    intro e he
    obtain ⟨k, hk, hek⟩ := mem_flatten_level he
    rw [List.length_dropLast] at hk
    rw [getD_dropLast ls k hk] at hek
    obtain ⟨hene, hj⟩ := hbound k (by omega) e hek
    have hmem := getLastD_mem hene 0
    obtain ⟨_, hub⟩ := hj _ hmem
    have : e.2.getLastD 0 < offAt ls (k + 2) := hub (by omega)
    have hle2 : offAt ls (k + 2) ≤ offAt ls ls.length := offAt_le ls (by omega)
    simp only [keepTest, decide_eq_true_eq]
    omega
  have hlast : ls.getLast hne = ls.getD (ls.length - 1) [] := by
    rw [List.getLast_eq_getElem, List.getD_eq_getElem _ _ (by omega)]
  have h0 : (ls.getLast hne).filter (keepTest (offAt ls ls.length)) = [] := by
    rw [List.filter_eq_nil_iff]
    intro e he
    rw [hlast] at he
    obtain ⟨hene, hj⟩ := hbound (ls.length - 1) (by omega) e he
    have hmem := getLastD_mem hene 0
    obtain ⟨hlb, _⟩ := hj _ hmem
    have : offAt ls (ls.length - 1 + 1) = offAt ls ls.length := by congr 1; omega
    simp only [keepTest, decide_eq_true_eq]
    omega
  rw [h1, h0, List.append_nil]

theorem layersOf_length (ls : List (List NTEntry)) : (layersOf ls).length = ls.length := by
  rw [layersOf, List.length_map, List.length_range]

theorem layersOf_headD (ls : List (List NTEntry)) (h : ls ≠ []) :
    (layersOf ls).headD [] = ls.flatten := by
  rw [layersOf, headD_map_range _ _ (Nat.pos_iff_ne_zero.mp (List.length_pos.mpr h)) []]
  rw [Nat.sub_zero, List.take_length]

theorem layersOf_getD (ls : List (List NTEntry)) (i : ℕ) (hi : i < ls.length) :
    (layersOf ls).getD i [] = (ls.take (ls.length - i)).flatten := by
  rw [layersOf, getD_map_of_lt (List.range ls.length) _ i (by simpa using hi) [] 0]
  rw [List.getD_eq_getElem _ _ (by simpa using hi), List.getElem_range]

theorem layersOf_cons {ls : List (List NTEntry)} (h2 : 2 ≤ ls.length) :
    layersOf ls = ls.flatten :: layersOf ls.dropLast := by
  obtain ⟨m, hm⟩ : ∃ m, ls.length = m + 1 := ⟨ls.length - 1, by omega⟩
  rw [layersOf, layersOf, List.length_dropLast, hm]
  rw [List.range_succ_eq_map, List.map_cons, List.map_map]
  congr 1
  · rw [Nat.sub_zero, ← hm, List.take_length]
  · refine List.map_congr_left fun i hi => ?_
    have him : i < m := List.mem_range.mp hi
    show (ls.take (m + 1 - (i + 1))).flatten = (ls.dropLast.take (m + 1 - 1 - i)).flatten
    rw [List.dropLast_eq_take, List.take_take, hm]
    congr 2
    omega

theorem evalNeigh_goodLevels : ∀ (fuel : ℕ) (ls : List (List NTEntry)), GoodLevels ls →
    ls.length ≤ fuel → evalNeighTreePerLayer fuel ls.flatten = some (layersOf ls) := by
  intro fuel
  induction fuel with
  | zero =>
    intro ls h hle
    have := List.length_pos.mpr h.1
    omega
  | succ n ih =>
    intro ls h hle
    have hne : ls ≠ [] := h.1
    have hpos : 0 < ls.length := List.length_pos.mpr hne
    rw [evalNeighTreePerLayer, goodLevels_evalStep ls h]
    show (if ls.dropLast.flatten.isEmpty then some [ls.flatten]
        else match evalNeighTreePerLayer n ls.dropLast.flatten with
          | none => none
          | some rest => some (ls.flatten :: rest)) = some (layersOf ls)
    by_cases h1 : ls.length = 1
    · have hdrop : ls.dropLast = [] := by
        rw [← List.length_eq_zero, List.length_dropLast]
        omega
      rw [hdrop]
      show some [ls.flatten] = some (layersOf ls)
      rw [layersOf, h1, (show List.range 1 = [0] by decide), List.map_cons, List.map_nil,
        Nat.sub_zero, List.take_of_length_le (by omega)]
    · have h2 : 2 ≤ ls.length := by omega
      have hgd : GoodLevels ls.dropLast := goodLevels_dropLast h h2
      have hfne : ¬ ls.dropLast.flatten.isEmpty = true := by
        rw [List.isEmpty_iff]
        exact flatten_ne_nil_of_goodLevels hgd
      rw [if_neg hfne, ih ls.dropLast hgd (by rw [List.length_dropLast]; omega)]
      show some (ls.flatten :: layersOf ls.dropLast) = some (layersOf ls)
      rw [layersOf_cons h2]

theorem fullSchema_goodLevels {ls : List (List NTEntry)} (h : FullSchema ls) :
    GoodLevels ls.dropLast := by
  obtain ⟨h2, hlev, hbound, _⟩ := h
  have hlen : ls.dropLast.length = ls.length - 1 := List.length_dropLast ls
  refine ⟨?_, ?_, ?_⟩
  · intro hnil
    have := congrArg List.length hnil
    rw [hlen] at this
    simp at this
    omega
  · intro l hl
    exact hlev l ((List.dropLast_prefix ls).subset hl)
  · intro k hk e he
    rw [hlen] at hk
    rw [getD_dropLast ls k hk] at he
    obtain ⟨hene, hj⟩ := hbound k hk e he
    refine ⟨hene, fun j hjm => ?_⟩
    obtain ⟨hj1, hj2⟩ := hj j hjm
    refine ⟨by rw [offAt_dropLast ls (k + 1) (by omega)]; exact hj1, fun hk1 => ?_⟩
    rw [hlen] at hk1
    rw [offAt_dropLast ls (k + 2) (by omega)]
    exact hj2

theorem fullSchema_filter {ls : List (List NTEntry)} (h : FullSchema ls) :
    ls.flatten.filter (fun e => !e.2.isEmpty) = ls.dropLast.flatten := by
  obtain ⟨h2, hlev, hbound, hleaf⟩ := h
  have hne : ls ≠ [] := by
    intro hh
    rw [hh] at h2
    simp at h2
  have hpos : 0 < ls.length := List.length_pos.mpr hne
  have hsplit : ls.flatten = ls.dropLast.flatten ++ ls.getLast hne := by
    conv_lhs => rw [← List.dropLast_append_getLast hne]
    rw [List.flatten_append]
    simp
  rw [hsplit, List.filter_append]
  have h1 : ls.dropLast.flatten.filter (fun e => !e.2.isEmpty) = ls.dropLast.flatten := by
    rw [List.filter_eq_self]
    intro e he
    obtain ⟨k, hk, hek⟩ := mem_flatten_level he
    rw [List.length_dropLast] at hk
    rw [getD_dropLast ls k hk] at hek
    have := (hbound k hk e hek).1
    simpa using this
  have hlast : ls.getLast hne = ls.getD (ls.length - 1) [] := by
    rw [List.getLast_eq_getElem, List.getD_eq_getElem _ _ (by omega)]
  have h0 : (ls.getLast hne).filter (fun e => !e.2.isEmpty) = [] := by
    rw [List.filter_eq_nil_iff]
    intro e he
    rw [hlast] at he
    simp [hleaf e he]
  rw [h1, h0, List.append_nil]

/-- **C2 counterexample.** A parent-first (children strictly after parents),
depth-consistent tree for `n_layers = 2` — every non-root position is a
neighbour slot, depths are 0/1/2, leaves exactly at depth 2 — on which
`eval_neigh_tree_per_layer` produces **3** layer trees, not 2: the claim's
parent-first ordering hypothesis is not enough; a breadth-first (level-
contiguous) serialization is required. -/
theorem neigh_trees_layer_count_counterexample :
    parentFirstOK [("r", [3, 1]), ("a", [2]), ("x", []), ("b", [4]), ("y", [])] ∧
    DepthAssign [("r", [3, 1]), ("a", [2]), ("x", []), ("b", [4]), ("y", [])] [0, 1, 2, 1, 2] ∧
    ReachAll [("r", [3, 1]), ("a", [2]), ("x", []), ("b", [4]), ("y", [])] ∧
    LeavesAt [("r", [3, 1]), ("a", [2]), ("x", []), ("b", [4]), ("y", [])] [0, 1, 2, 1, 2] 2 ∧
    (evalNeighTreePerLayer
        (([("r", [3, 1]), ("a", [2]), ("x", []), ("b", [4]), ("y", [])].filter
          (fun e => !e.2.isEmpty)).length + 1)
        ([("r", [3, 1]), ("a", [2]), ("x", []), ("b", [4]), ("y", [])].filter
          (fun e => !e.2.isEmpty))).map List.length = some 3 := by
  refine ⟨by decide, by decide, by decide, by decide, by decide⟩

/-- **C2 (amended).** For a `NeighborhoodTree` derived for `n_layers ≥ 1`
layers and serialized **breadth-first** (levels contiguous in depth order, as
the schema collaborator produces; parent-first alone is not enough, see the
counterexample), the derived layer-tree sequence: has length exactly
`n_layers`; its first tree is the full tree minus the entries with empty
neighbour lists; and every neighbour index in the last layer's tree is a
valid position of the previous layer's output list. -/
theorem neigh_trees_layer_count (ls : List (List NTEntry)) (nLayers : ℕ)
    (hfs : FullSchema ls) (hn : nLayers = ls.length - 1) :
    ∃ trees, evalNeighTreePerLayer
        ((ls.flatten.filter (fun e => !e.2.isEmpty)).length + 1)
        (ls.flatten.filter (fun e => !e.2.isEmpty)) = some trees ∧
      trees.length = nLayers ∧
      trees.headD [] = ls.flatten.filter (fun e => !e.2.isEmpty) ∧
      ∀ e ∈ trees.getLastD [], ∀ j ∈ e.2,
        j < ((ls.flatten :: trees).getD (trees.length - 1) []).length := by
  subst hn
  obtain ⟨h2, hlev, hbound, hleaf⟩ := hfs
  have hgl : GoodLevels ls.dropLast := fullSchema_goodLevels ⟨h2, hlev, hbound, hleaf⟩
  have hfilter := fullSchema_filter ⟨h2, hlev, hbound, hleaf⟩
  rw [hfilter]
  have hlen : ls.dropLast.length = ls.length - 1 := List.length_dropLast ls
  have hfe : ∀ l ∈ ls.dropLast, l ≠ [] := hgl.2.1
  have hlef : ls.dropLast.length ≤ ls.dropLast.flatten.length :=
    length_le_length_flatten _ hfe
  have hdpos : 0 < ls.dropLast.length := by rw [hlen]; omega
  refine ⟨layersOf ls.dropLast,
    evalNeigh_goodLevels _ _ hgl (by omega),
    by rw [layersOf_length, hlen],
    layersOf_headD _ hgl.1, ?_⟩
  intro e he j hj
  -- the last layer tree is the root level of the tree
  have hlast : (layersOf ls.dropLast).getLastD [] = (ls.dropLast.take 1).flatten := by
    rw [getLastD_eq_getD, layersOf_length, layersOf_getD _ _ (by omega)]
    congr 2
    omega
  rw [hlast] at he
  obtain ⟨k, hk, hek⟩ := mem_flatten_level he
  have hk0 : k = 0 := by
    have := List.length_take 1 ls.dropLast
    omega
  subst hk0
  have he0 : e ∈ ls.getD 0 [] := by
    have htake : ls.dropLast.take 1 = ls.take 1 := by
      rw [List.dropLast_eq_take, List.take_take]
      congr 1
      omega
    rw [htake] at hek
    have h0 : (0 : ℕ) < (ls.take 1).length := by
      rw [List.length_take]
      omega
    rw [List.getD_eq_getElem _ _ h0, List.getElem_take] at hek
    rw [List.getD_eq_getElem _ _ (by omega)]
    exact hek
  obtain ⟨hene, hjb⟩ := hbound 0 (by omega) e he0
  obtain ⟨hlb, hub⟩ := hjb j hj
  -- j < offAt ls 2 in every case
  rw [layersOf_length]
  by_cases hone : ls.dropLast.length = 1
  · rw [hone]
    show j < ((ls.flatten :: layersOf ls.dropLast).getD 0 []).length
    rw [List.getD_cons_zero]
    have hub2 : j < offAt ls 2 := hub
    have : offAt ls 2 ≤ offAt ls ls.length := offAt_le ls (by omega)
    rw [offAt_length] at this
    omega
  · have hge2 : 2 ≤ ls.dropLast.length := by omega
    obtain ⟨m, hm⟩ : ∃ m, ls.dropLast.length - 1 = m + 1 := ⟨ls.dropLast.length - 2, by omega⟩
    rw [hm, List.getD_cons_succ]
    rw [layersOf_getD _ _ (by omega)]
    have hmm : ls.dropLast.length - m = 2 := by omega
    rw [hmm, flatten_take_length]
    rw [offAt_dropLast ls 2 (by omega)]
    exact hub

/-- **C2 witness.** The amended theorem applied to a concrete breadth-first
2-layer tree. -/
theorem neigh_trees_layer_count_witness :
    FullSchema [[("u", [1])], [("v", [2])], [("w", [])]] ∧
    ∃ trees, evalNeighTreePerLayer
        (([[("u", [1])], [("v", [2])], [("w", [])]].flatten.filter
          (fun e => !e.2.isEmpty)).length + 1)
        ([[("u", [1])], [("v", [2])], [("w", [])]].flatten.filter
          (fun e => !e.2.isEmpty)) = some trees ∧
      trees.length = 2 ∧
      trees.headD [] = [[("u", [1])], [("v", [2])], [("w", [])]].flatten.filter
        (fun e => !e.2.isEmpty) ∧
      ∀ e ∈ trees.getLastD [], ∀ j ∈ e.2,
        j < (([[("u", [1])], [("v", [2])], [("w", [])]].flatten :: trees).getD
          (trees.length - 1) []).length :=
  ⟨by decide, neigh_trees_layer_count [[("u", [1])], [("v", [2])], [("w", [])]] 2
    (by decide) (by decide)⟩

theorem scanl_mul_getD : ∀ (ns : List ℕ) (q k : ℕ), k ≤ ns.length →
    (List.scanl (· * ·) q ns).getD k 0 = q * (ns.take k).prod := by
  intro ns
  induction ns with
  | nil =>
    intro q k hk
    have hk0 : k = 0 := by simp at hk; omega
    subst hk0
    simp
  | cons a l ih =>
    intro q k hk
    rw [List.scanl_cons, List.singleton_append]
    cases k with
    | zero => simp
    | succ k =>
      rw [List.getD_cons_succ, ih (q * a) k (by simpa using hk), List.take_succ_cons,
        List.prod_cons]
      ring

theorem merge_preserves (da acc : ℕ → Option (ℕ × ℕ)) (p : ℕ) (h : (acc p).isSome) :
    ((da p).elim (acc p) some).isSome := by
  cases hd : da p with
  | none => exact h
  | some w => rfl

theorem foldlM_merge_mono (stree : List NTEntry) (inputDims : String → ℕ) (sizes : List ℕ)
    (fuel level : ℕ) :
    ∀ (l : List ℕ) (base res : ℕ → Option (ℕ × ℕ)),
    l.foldlM (fun acc a => (getShape stree inputDims sizes fuel a (level + 1)).map
      (fun da => fun p => (da p).elim (acc p) some)) base = some res →
    (∀ p, (base p).isSome → (res p).isSome) ∧
    (∀ a ∈ l, ∃ da, getShape stree inputDims sizes fuel a (level + 1) = some da ∧
      ∀ p, (da p).isSome → (res p).isSome) := by
  intro l
  induction l with
  | nil =>
    intro base res h
    rw [List.foldlM_nil] at h
    obtain rfl := Option.some.inj h
    exact ⟨fun p hp => hp, fun a ha => absurd ha (List.not_mem_nil a)⟩
  | cons a tl ih =>
    intro base res h
    rw [List.foldlM_cons] at h
    cases hg : getShape stree inputDims sizes fuel a (level + 1) with
    | none =>
      rw [hg] at h
      exact absurd h (by simp)
    | some da =>
      rw [hg] at h
      obtain ⟨hmono, hchild⟩ := ih (fun p => (da p).elim (base p) some) res h
      refine ⟨?_, ?_⟩
      · intro p hp
        exact hmono p (merge_preserves da base p hp)
      · intro a2 ha2
        rcases List.mem_cons.mp ha2 with rfl | htl
        · refine ⟨da, hg, fun p hp => ?_⟩
          apply hmono
          obtain ⟨w, hw⟩ := Option.isSome_iff_exists.mp hp
          show ((da p).elim (base p) some).isSome
          rw [hw]
          rfl
        · exact hchild a2 htl

theorem foldlM_merge_sound (stree : List NTEntry) (inputDims : String → ℕ) (sizes : List ℕ)
    (fuel level : ℕ) :
    ∀ (l : List ℕ) (base res : ℕ → Option (ℕ × ℕ)),
    l.foldlM (fun acc a => (getShape stree inputDims sizes fuel a (level + 1)).map
      (fun da => fun p => (da p).elim (acc p) some)) base = some res →
    ∀ p v, res p = some v → base p = some v ∨
      ∃ a ∈ l, ∃ da, getShape stree inputDims sizes fuel a (level + 1) = some da ∧
        da p = some v := by
  intro l
  induction l with
  | nil =>
    intro base res h p v hpv
    rw [List.foldlM_nil] at h
    obtain rfl := Option.some.inj h
    exact Or.inl hpv
  | cons a tl ih =>
    intro base res h p v hpv
    rw [List.foldlM_cons] at h
    cases hg : getShape stree inputDims sizes fuel a (level + 1) with
    | none =>
      rw [hg] at h
      exact absurd h (by simp)
    | some da =>
      rw [hg] at h
      rcases ih (fun p => (da p).elim (base p) some) res h p v hpv with
        hacc | ⟨a2, ha2, da2, hda2, hda2p⟩
      · cases hdap : da p with
        | none =>
          rw [hdap] at hacc
          exact Or.inl hacc
        | some w =>
          rw [hdap] at hacc
          exact Or.inr ⟨a, List.mem_cons_self a tl, da, hg, by rw [hdap]; exact hacc⟩
      · exact Or.inr ⟨a2, List.mem_cons_of_mem a ha2, da2, hda2, hda2p⟩

theorem foldlM_merge_success (stree : List NTEntry) (inputDims : String → ℕ) (sizes : List ℕ)
    (fuel level : ℕ) :
    ∀ (l : List ℕ) (base : ℕ → Option (ℕ × ℕ)),
    (∀ a ∈ l, (getShape stree inputDims sizes fuel a (level + 1)).isSome) →
    (l.foldlM (fun acc a => (getShape stree inputDims sizes fuel a (level + 1)).map
      (fun da => fun p => (da p).elim (acc p) some)) base).isSome := by
  intro l
  induction l with
  | nil =>
    intro base h
    rw [List.foldlM_nil]
    rfl
  | cons a tl ih =>
    intro base h
    rw [List.foldlM_cons]
    obtain ⟨da, hda⟩ := Option.isSome_iff_exists.mp (h a (List.mem_cons_self a tl))
    rw [hda]
    exact ih _ (fun a2 ha2 => h a2 (List.mem_cons_of_mem a ha2))

theorem getShape_success (stree : List NTEntry) (inputDims : String → ℕ) (sizes : List ℕ)
    (hpf : parentFirstOK stree) :
    ∀ fuel c level, c < stree.length → stree.length - c ≤ fuel →
    (getShape stree inputDims sizes fuel c level).isSome := by
  intro fuel
  induction fuel with
  | zero =>
    intro c level hc hf
    omega
  | succ n ih =>
    intro c level hc hf
    rw [getShape]
    apply foldlM_merge_success
    intro a ha
    obtain ⟨hca, hal⟩ := hpf c hc a ha
    exact ih a (level + 1) hal (by omega)

theorem getShape_sound (stree : List NTEntry) (ds : List ℕ) (inputDims : String → ℕ)
    (sizes : List ℕ) (hpf : parentFirstOK stree) (hda : DepthAssign stree ds) :
    ∀ fuel c level d, c < stree.length → level = ds.getD c 0 →
    getShape stree inputDims sizes fuel c level = some d →
    ∀ p v, d p = some v → p < stree.length ∧
      v = (sizes.getD (ds.getD p 0) 0, inputDims (stree.getD p ("", [])).1) := by
  intro fuel
  induction fuel with
  | zero =>
    intro c level d hc hl h
    cases h
  | succ n ih =>
    intro c level d hc hl h p v hpv
    rw [getShape] at h
    rcases foldlM_merge_sound stree inputDims sizes n level _ _ _ h p v hpv with
      hbase | ⟨a, ha, da, hda2, hdap⟩
    · by_cases hpc : p = c
      · subst hpc
        rw [if_pos rfl] at hbase
        refine ⟨hc, ?_⟩
        rw [← Option.some.inj hbase, hl]
      · rw [if_neg hpc] at hbase
        cases hbase
    · obtain ⟨hca, hal⟩ := hpf c hc a ha
      have hdepth : ds.getD a 0 = ds.getD c 0 + 1 := hda.2.2 c hc a ha
      exact ih a (level + 1) da hal (by rw [hdepth, ← hl]) hda2 p v hdap

theorem getShape_covers (stree : List NTEntry) (inputDims : String → ℕ) (sizes : List ℕ) :
    ∀ {c p : ℕ}, Reaches stree c p →
    ∀ fuel level d, getShape stree inputDims sizes fuel c level = some d →
    (d p).isSome := by
  intro c p hr
  induction hr with
  | refl c =>
    intro fuel level d h
    cases fuel with
    | zero => cases h
    | succ n =>
      rw [getShape] at h
      apply (foldlM_merge_mono stree inputDims sizes n level _ _ _ h).1
      simp
  | step ha hr ih =>
    intro fuel level d h
    cases fuel with
    | zero => cases h
    | succ n =>
      rw [getShape] at h
      obtain ⟨da, hda, hpres⟩ := (foldlM_merge_mono stree inputDims sizes n level _ _ _ h).2 _ ha
      exact hpres _ (ih n (level + 1) da hda)

theorem reaches_extend {stree : List NTEntry} :
    ∀ {c q : ℕ}, Reaches stree c q →
    ∀ {p}, p ∈ (stree.getD q ("", [])).2 → Reaches stree c p := by
  intro c q h
  induction h with
  | refl c => exact fun hp => Reaches.step hp (Reaches.refl _)
  | step ha _ ih => exact fun hp => Reaches.step ha (ih hp)

theorem reaches_root (stree : List NTEntry) (hpf : parentFirstOK stree)
    (hra : ReachAll stree) : ∀ p, p < stree.length → Reaches stree 0 p := by
  intro p
  induction p using Nat.strong_induction_on with
  | _ p ih =>
    intro hp
    rcases Nat.eq_zero_or_pos p with rfl | hppos
    · exact Reaches.refl 0
    · obtain ⟨q, hq, hmem⟩ := hra p hp hppos
      have hqp : q < p := (hpf q hq p hmem).1
      exact reaches_extend (ih q hqp (by omega)) hmem

theorem mapM_eq_map {d : ℕ → Option (ℕ × ℕ)} {g : ℕ → ℕ × ℕ} :
    ∀ l : List ℕ, (∀ p ∈ l, d p = some (g p)) → l.mapM d = some (l.map g) := by
  intro l
  induction l with
  | nil => intro _; rfl
  | cons a tl ih =>
    intro h
    rw [List.mapM_cons, h a (List.mem_cons_self a tl),
      ih (fun p hp => h p (List.mem_cons_of_mem a hp))]
    rfl

/-- **C4.** For a neighbourhood tree in parent-first order whose every
non-root position is referenced, with a consistent hop-depth assignment `ds`
bounded by the number of sample counts, `input_shapes` returns, for every
position in position order, the pair (cumulative fanout at that position's
depth, input feature dimension of the position's node type), where the
cumulative fanout at depth `k` is the product of `n_samples[0..k-1]` — equal
to 1 at depth 0. -/
theorem input_shapes_correct (stree : List NTEntry) (ds : List ℕ) (inputDims : String → ℕ)
    (nSamples : List ℕ) (hpf : parentFirstOK stree) (hda : DepthAssign stree ds)
    (hra : ReachAll stree) (hpos : 0 < stree.length)
    (hdep : ∀ p, p < stree.length → ds.getD p 0 ≤ nSamples.length) :
    inputShapes stree inputDims nSamples =
      some ((List.range stree.length).map (fun p =>
        ((nSamples.take (ds.getD p 0)).prod, inputDims (stree.getD p ("", [])).1))) ∧
    (nSamples.take 0).prod = 1 := by
  refine ⟨?_, rfl⟩
  have hsome := getShape_success stree inputDims (List.scanl (· * ·) 1 nSamples) hpf
    (stree.length + 1) 0 0 hpos (by omega)
  obtain ⟨d, hd⟩ := Option.isSome_iff_exists.mp hsome
  rw [inputShapes]
  show (getShape stree inputDims (List.scanl (· * ·) 1 nSamples) (stree.length + 1) 0 0).bind
      (fun d => (List.range stree.length).mapM d) = _
  rw [hd, Option.some_bind]
  apply mapM_eq_map
  intro p hp
  have hplen : p < stree.length := List.mem_range.mp hp
  have hcov := getShape_covers stree inputDims (List.scanl (· * ·) 1 nSamples)
    (reaches_root stree hpf hra p hplen) _ _ _ hd
  obtain ⟨v, hv⟩ := Option.isSome_iff_exists.mp hcov
  have hsound := getShape_sound stree ds inputDims (List.scanl (· * ·) 1 nSamples) hpf hda
    (stree.length + 1) 0 0 d hpos hda.2.1.symm hd p v hv
  rw [hv, hsound.2, scanl_mul_getD nSamples 1 _ (hdep p hplen), one_mul]

/-- **C4 witness.** The theorem applied to the spec's example: root plus one
neighbour position, `n_samples = [5, 3]`, yielding `(1, input_dim_root)` and
`(5, input_dim_neigh)`. -/
theorem input_shapes_correct_witness :
    parentFirstOK [("root", [1]), ("neigh", [])] ∧
    inputShapes [("root", [1]), ("neigh", [])]
      (fun s => if s = "root" then 7 else 4) [5, 3] = some [(1, 7), (5, 4)] := by
  refine ⟨by decide, ?_⟩
  have h := (input_shapes_correct [("root", [1]), ("neigh", [])] [0, 1]
    (fun s => if s = "root" then 7 else 4) [5, 3] (by decide) (by decide) (by decide)
    (by decide) (by decide)).1
  rw [h]
  rfl

theorem mapM_forall₂ {α β : Type} (f : α → Option β) :
    ∀ (l : List α) (l2 : List β), l.mapM f = some l2 →
    List.Forall₂ (fun a b => f a = some b) l l2 := by
  intro l
  induction l with
  | nil =>
    intro l2 h
    rw [List.mapM_nil] at h
    obtain rfl := Option.some.inj h
    exact List.Forall₂.nil
  | cons a tl ih =>
    intro l2 h
    rw [List.mapM_cons] at h
    cases hfa : f a with
    | none =>
      rw [hfa] at h
      exact absurd h (by simp)
    | some b =>
      rw [hfa] at h
      cases hmt : tl.mapM f with
      | none =>
        rw [hmt] at h
        exact absurd h (by simp)
      | some bs =>
        rw [hmt] at h
        obtain rfl := Option.some.inj h
        exact List.Forall₂.cons hfa (ih bs hmt)

theorem forall₂_map_eq {α β γ : Type} {R : α → β → Prop} {g : α → γ} {h : β → γ} :
    ∀ {l : List α} {l2 : List β}, List.Forall₂ R l l2 →
    (∀ a b, R a b → g a = h b) → l.map g = l2.map h := by
  intro l l2 hf hgh
  induction hf with
  | nil => rfl
  | cons hr _ ih => rw [List.map_cons, List.map_cons, hgh _ _ hr, ih]

theorem forall₂_mem_right {α β : Type} {R : α → β → Prop} :
    ∀ {l : List α} {l2 : List β}, List.Forall₂ R l l2 → ∀ b ∈ l2, ∃ a ∈ l, R a b := by
  intro l l2 hf
  induction hf with
  | nil => intro b hb; cases hb
  | cons hr _ ih =>
    intro b hb
    rcases List.mem_cons.mp hb with rfl | hb2
    · exact ⟨_, List.mem_cons_self _ _, hr⟩
    · obtain ⟨a, ha, har⟩ := ih b hb2
      exact ⟨a, List.mem_cons_of_mem _ ha, har⟩

theorem mkMeanHinAggregator_props {d : ℕ} {b : Bool} {act : ℚ → ℚ} {cfg : AggConfig}
    (h : mkMeanHinAggregator d b act = some cfg) :
    cfg.outputDim = d ∧ cfg.halfOutputDim = d / 2 ∧ cfg.hasBias = b ∧ cfg.act = act ∧
    d % 2 = 0 := by
  by_cases he : d % 2 = 0
  · rw [mkMeanHinAggregator, if_pos he] at h
    obtain rfl := Option.some.inj h
    exact ⟨rfl, rfl, rfl, rfl, he⟩
  · rw [mkMeanHinAggregator, if_neg he] at h
    cases h

theorem hinAggs_layer {nLayers : ℕ} {dims : List (List (String × ℕ))} {bias : Bool}
    {inits : ℕ → String → (ℕ → ℕ → ℕ → ℚ) × (ℕ → ℕ → ℚ)}
    {ag : List (List (String × AggInst))} (h : hinAggs nLayers dims bias inits = some ag)
    (L : ℕ) (hL : L < nLayers) :
    ag.length = nLayers ∧
    List.Forall₂ (fun (td : String × ℕ) (e : String × AggInst) =>
      (mkMeanHinAggregator td.2 bias (if L < nLayers - 1 then reluQ else linearQ)).map
        (fun cfg => (td.1, AggInst.mk cfg (inits L td.1).1 (inits L td.1).2 none)) = some e)
      (dims.getD (L + 1) []) (ag.getD L []) := by
  have hf := mapM_forall₂ _ _ _ h
  have hlen := hf.length_eq
  rw [List.length_range] at hlen
  refine ⟨hlen.symm, ?_⟩
  obtain ⟨_, hget⟩ := List.forall₂_iff_get.mp hf
  have hLag : L < ag.length := by omega
  have hr := hget L (by simpa using hL) hLag
  rw [List.get_eq_getElem, List.get_eq_getElem, List.getElem_range] at hr
  have hinner := mapM_forall₂ _ _ _ hr
  rw [List.getD_eq_getElem _ _ hLag]
  exact hinner

/-- **C6.** Configuration errors fail at construction before anything is
created: an odd `output_dim` fails the aggregator constructor's assertion
(and an even one succeeds), and `len(n_samples) != len(output_dims)` fails
the composer constructor's assertion before any derivation runs. -/
theorem config_errors_fail_fast :
    (∀ (d : ℕ) (b : Bool) (act : ℚ → ℚ), d % 2 = 1 → mkMeanHinAggregator d b act = none) ∧
    (∀ (d : ℕ) (b : Bool) (act : ℚ → ℚ), d % 2 = 0 →
      mkMeanHinAggregator d b act = some ⟨d, d / 2, b, act⟩) ∧
    (∀ (outputDims : List (ℕ ⊕ List (String × ℕ))) (nSamples : List ℕ)
      (tree : List NTEntry) (inputDim : List (String × ℕ)) (bias : Bool)
      (dropV sqrtFn : ℚ → ℚ) (inits : ℕ → String → (ℕ → ℕ → ℕ → ℚ) × (ℕ → ℕ → ℚ)),
      nSamples.length ≠ outputDims.length →
      mkHinSAGE outputDims nSamples tree inputDim bias dropV sqrtFn inits = none) := by
  refine ⟨?_, ?_, ?_⟩
  · intro d b act h
    rw [mkMeanHinAggregator, if_neg (by omega)]
  · intro d b act h
    rw [mkMeanHinAggregator, if_pos h]
  · intro od ns tr idim bias dv sf ins h
    rw [mkHinSAGE, if_neg h]

/-- **C6 witness.** The theorem applied at `output_dim = 3` and at mismatched
list lengths. -/
theorem config_errors_fail_fast_witness :
    mkMeanHinAggregator 3 false linearQ = none ∧
    mkHinSAGE [] [1] [] [] false linearQ linearQ
      (fun _ _ => (fun _ _ _ => 0, fun _ _ => 0)) = none :=
  ⟨config_errors_fail_fast.1 3 false linearQ (by decide),
   config_errors_fail_fast.2.2 [] [1] [] [] false linearQ linearQ
     (fun _ _ => (fun _ _ _ => 0, fun _ _ => 0)) (by decide)⟩

/-- **C8.** A successfully constructed composer has one aggregator table per
layer; layer `L`'s table has exactly the node types of the layer-`(L+1)` Dims
mapping, every aggregator in layers before the final one carries the
rectified-linear activation, and every aggregator of the final layer
(`L = n_layers - 1`) carries the linear activation. -/
theorem aggregator_layer_activations (outputDims : List (ℕ ⊕ List (String × ℕ)))
    (nSamples : List ℕ) (tree : List NTEntry) (inputDim : List (String × ℕ)) (bias : Bool)
    (dropV sqrtFn : ℚ → ℚ) (inits : ℕ → String → (ℕ → ℕ → ℕ → ℚ) × (ℕ → ℕ → ℚ))
    (m : HinModel)
    (hmk : mkHinSAGE outputDims nSamples tree inputDim bias dropV sqrtFn inits = some m)
    (L : ℕ) (hL : L < m.nLayers) :
    m.nLayers = nSamples.length ∧
    m.aggsB.length = m.nLayers ∧
    (m.aggsB.getD L []).map Prod.fst = (m.dims.getD (L + 1) []).map Prod.fst ∧
    (∀ e ∈ m.aggsB.getD L [], e.2.cfg.act = if L < m.nLayers - 1 then reluQ else linearQ) ∧
    (L = m.nLayers - 1 → ∀ e ∈ m.aggsB.getD L [], e.2.cfg.act = linearQ) := by
  rw [mkHinSAGE] at hmk
  by_cases hlen : nSamples.length = outputDims.length
  swap
  · rw [if_neg hlen] at hmk
    cases hmk
  rw [if_pos hlen] at hmk
  cases hev : evalNeighTreePerLayer ((tree.filter (fun li => !li.2.isEmpty)).length + 1)
      (tree.filter (fun li => !li.2.isEmpty)) with
  | none =>
    rw [hev] at hmk
    cases hmk
  | some nt =>
    rw [hev] at hmk
    simp only [Option.some_bind] at hmk
    cases hagg : hinAggs nSamples.length (hinDims inputDim outputDims nt) bias inits with
    | none =>
      rw [hagg] at hmk
      cases hmk
    | some ag =>
      rw [hagg] at hmk
      obtain rfl := Option.some.inj hmk
      obtain ⟨haglen, hfa⟩ := hinAggs_layer hagg L hL
      have hkeys :
          (ag.getD L []).map Prod.fst =
          ((hinDims inputDim outputDims nt).getD (L + 1) []).map Prod.fst := by
        refine (forall₂_map_eq hfa ?_).symm
        intro td e hrel
        cases hmk2 : mkMeanHinAggregator td.2 bias (if L < nSamples.length - 1
            then reluQ else linearQ) with
        | none =>
          rw [hmk2] at hrel
          cases hrel
        | some cfg =>
          rw [hmk2] at hrel
          obtain rfl := Option.some.inj hrel
          rfl
      have hact : ∀ e ∈ ag.getD L [], e.2.cfg.act =
          if L < nSamples.length - 1 then reluQ else linearQ := by
        intro e he
        obtain ⟨td, _, hrel⟩ := forall₂_mem_right hfa e he
        cases hmk2 : mkMeanHinAggregator td.2 bias (if L < nSamples.length - 1
            then reluQ else linearQ) with
        | none =>
          rw [hmk2] at hrel
          cases hrel
        | some cfg =>
          rw [hmk2] at hrel
          obtain rfl := Option.some.inj hrel
          exact (mkMeanHinAggregator_props hmk2).2.2.2.1
      refine ⟨rfl, haglen, hkeys, hact, fun hfin e he => ?_⟩
      rw [hact e he, if_neg (by rw [hfin]; exact Nat.lt_irrefl _)]

/-- **C8 witness.** The theorem applied to the concrete two-layer model
`egModel` (the final layer's table carries the linear activation). -/
theorem aggregator_layer_activations_witness :
    egModel.nLayers = ([2, 2] : List ℕ).length ∧
    (egModel.aggsB.getD 1 []).map Prod.fst = (egModel.dims.getD 2 []).map Prod.fst := by
  have h := aggregator_layer_activations [Sum.inl 4, Sum.inl 2] [2, 2]
    [("paper", [1]), ("paper", [2]), ("paper", [])] [("paper", 3)] false linearQ linearQ
    (fun _ _ => (fun _ _ _ => 0, fun _ _ => 0)) egModel rfl 1 (by decide)
  exact ⟨h.1, h.2.2.1⟩

theorem setLayerTable_nLayers (m : HinModel) (layer : ℕ) (tbl : List (String × AggInst)) :
    (setLayerTable m layer tbl).nLayers = m.nLayers := rfl

/-- **C7.** The forward call recursion reduces layer by layer and stops
exactly at layer `n_layers` (the step and base equations below), after which
every surviving output tensor is L2-normalized along the feature axis, the
single normalized tensor is returned bare when exactly one survives, and the
list of normalized tensors is returned otherwise. -/
theorem forward_normalization (m : HinModel) (x : List T3) (m2 : HinModel) (out : List T3)
    (hc : composeLayers m x 0 = (m2, some out)) :
    hinApply m x = (m2, some (if out.length = 1
        then Sum.inl (l2normalize m.sqrtFn (out.getD 0 t3Zero))
        else Sum.inr (out.map (l2normalize m.sqrtFn)))) ∧
    (∀ (y : List T3) (L : ℕ), m.nLayers ≤ L → composeLayers m y L = (m, some y)) ∧
    (∀ (y : List T3) (L : ℕ), L < m.nLayers → composeLayers m y L =
      match applyLayer m L y with
      | (tbl, none) => (setLayerTable m L tbl, none)
      | (tbl, some y2) => composeLayers (setLayerTable m L tbl) y2 (L + 1)) := by
  refine ⟨?_, ?_, ?_⟩
  · rw [hinApply, hc]
  · intro y L hL
    rw [composeLayers, Nat.sub_eq_zero_of_le hL]
    rfl
  · intro y L hL
    obtain ⟨f, hf⟩ : ∃ f, m.nLayers - L = f + 1 := ⟨m.nLayers - L - 1, by omega⟩
    rw [composeLayers, hf, composeLayersAux]
    cases happ : applyLayer m L y with
    | mk tbl r =>
      cases r with
      | none => rfl
      | some y2 =>
        show composeLayersAux f (setLayerTable m L tbl) y2 (L + 1) =
          composeLayers (setLayerTable m L tbl) y2 (L + 1)
        have hval : (setLayerTable m L tbl).nLayers - (L + 1) = f := by
          show m.nLayers - (L + 1) = f
          omega
        rw [composeLayers, hval]

/-- **C7 witness.** The theorem applied at a zero-layer model, where a single
tensor survives and is returned bare and normalized. -/
theorem forward_normalization_witness :
    hinApply ⟨0, [], false, linearQ, linearQ, [], [], [], [], [], []⟩ [t3Zero] =
      (⟨0, [], false, linearQ, linearQ, [], [], [], [], [], []⟩,
       some (if [t3Zero].length = 1
          then Sum.inl (l2normalize linearQ ([t3Zero].getD 0 t3Zero))
          else Sum.inr ([t3Zero].map (l2normalize linearQ)))) :=
  (forward_normalization ⟨0, [], false, linearQ, linearQ, [], [], [], [], [], []⟩
    [t3Zero] ⟨0, [], false, linearQ, linearQ, [], [], [], [], [], []⟩ [t3Zero] rfl).1

theorem buildIfNeeded_of_built {inst : AggInst} {p : AggParams} (h : inst.built = some p)
    (s : List (List ℕ)) : buildIfNeeded inst s = inst := by
  rw [buildIfNeeded, h]

theorem buildIfNeeded_built_isSome (inst : AggInst) (s : List (List ℕ)) :
    ((buildIfNeeded inst s).built).isSome := by
  rw [buildIfNeeded]
  cases h : inst.built with
  | some p => rw [h]; rfl
  | none => rfl

theorem lookup_updateTable (tbl : List (String × AggInst)) (k : String) (v : AggInst)
    (ty : String) :
    (updateTable tbl k v).lookup ty =
      if ty = k then (tbl.lookup k).map (fun _ => v) else tbl.lookup ty := by
  induction tbl with
  | nil =>
    by_cases h : ty = k <;> simp [updateTable, h]
  | cons kv tl ih =>
    rw [updateTable, List.map_cons]
    by_cases hkk : kv.1 = k
    · rw [if_pos hkk]
      by_cases hty : ty = k
      · subst hty
        rw [if_pos rfl, List.lookup_cons_self]
        have : kv = (kv.1, kv.2) := rfl
        rw [this, ← hkk, List.lookup_cons_self]
        rfl
      · rw [if_neg hty, List.lookup_cons, List.lookup_cons]
        have hne : (ty == kv.1) = false := by
          rw [beq_eq_false_iff_ne]
          rw [hkk]
          exact hty
        rw [show (ty == k) = false from by rw [beq_eq_false_iff_ne]; exact hty, hne]
        have := ih
        rw [updateTable] at this
        rw [this, if_neg hty]
    · rw [if_neg hkk]
      rw [List.lookup_cons, List.lookup_cons]
      by_cases hty2 : ty = kv.1
      · have hbeq : (ty == kv.1) = true := by rw [beq_iff_eq]; exact hty2
        rw [hbeq]
        have hty3 : ty ≠ k := by rw [hty2]; exact hkk
        rw [if_neg hty3, List.lookup_cons, hbeq]
      · have hbeq : (ty == kv.1) = false := by rw [beq_eq_false_iff_ne]; exact hty2
        rw [hbeq]
        have := ih
        rw [updateTable] at this
        rw [this]
        by_cases hty : ty = k
        · rw [if_pos hty, if_pos hty]
          subst hty
          rw [hbeq]
        · rw [if_neg hty, if_neg hty, List.lookup_cons, hbeq]

theorem applyPositions_nil (m : HinModel) (layer : ℕ) (x : List T3) (i : ℕ)
    (table : List (String × AggInst)) :
    applyPositions m layer x i [] table = (table, some []) := rfl

theorem applyPositions_cons (m : HinModel) (layer : ℕ) (x : List T3) (i : ℕ) (e : NTEntry)
    (rest : List NTEntry) (table : List (String × AggInst)) :
    applyPositions m layer x i (e :: rest) table =
      match table.lookup e.1 with
      | none => (table, none)
      | some inst =>
        match aggCall ((buildIfNeeded inst (posShape m layer i x e)).built.getD aggParamsZero)
            (posSelf m i x) (posNeighs m layer i x e) with
        | none => (updateTable table e.1 (buildIfNeeded inst (posShape m layer i x e)), none)
        | some o =>
          match applyPositions m layer x (i + 1) rest
              (updateTable table e.1 (buildIfNeeded inst (posShape m layer i x e))) with
          | (table3, some os) => (table3, some (o :: os))
          | (table3, none) => (table3, none) := rfl

theorem applyPositions_preserves (m : HinModel) (layer : ℕ) (x : List T3) :
    ∀ (l : List NTEntry) (i : ℕ) (tbl : List (String × AggInst)) (ty : String)
      (inst : AggInst) (p : AggParams),
    tbl.lookup ty = some inst → inst.built = some p →
    ((applyPositions m layer x i l tbl).1.lookup ty) = some inst := by
  intro l
  induction l with
  | nil =>
    intro i tbl ty inst p hlk _
    exact hlk
  | cons e rest ih =>
    intro i tbl ty inst p hlk hb
    rw [applyPositions_cons]
    split
    · exact hlk
    next inste hle =>
      have htbl2 : (updateTable tbl e.1 (buildIfNeeded inste (posShape m layer i x e))).lookup ty
          = some inst := by
        rw [lookup_updateTable]
        by_cases hty : ty = e.1
        · subst hty
          obtain rfl : inste = inst := by
            rw [hlk] at hle
            exact (Option.some.inj hle).symm
          rw [if_pos rfl, buildIfNeeded_of_built hb, hlk]
          rfl
        · rw [if_neg hty]
          exact hlk
      have hrec := ih (i + 1) _ ty inst p htbl2 hb
      split
      next hac => exact htbl2
      next o hac =>
        split
        next t3 os happ =>
          rw [happ] at hrec
          exact hrec
        next t3 happ =>
          rw [happ] at hrec
          exact hrec

theorem applyPositions_lookup_isSome (m : HinModel) (layer : ℕ) (x : List T3) :
    ∀ (l : List NTEntry) (i : ℕ) (tbl : List (String × AggInst)) (ty : String),
    (tbl.lookup ty).isSome →
    (((applyPositions m layer x i l tbl).1).lookup ty).isSome := by
  intro l
  induction l with
  | nil =>
    intro i tbl ty hlk
    exact hlk
  | cons e rest ih =>
    intro i tbl ty hlk
    rw [applyPositions_cons]
    split
    · exact hlk
    next inste hle =>
      have htbl2 : ((updateTable tbl e.1
          (buildIfNeeded inste (posShape m layer i x e))).lookup ty).isSome := by
        rw [lookup_updateTable]
        by_cases hty : ty = e.1
        · subst hty
          rw [if_pos rfl, hle]
          rfl
        · rw [if_neg hty]
          exact hlk
      have hrec := ih (i + 1) _ ty htbl2
      split
      next hac => exact htbl2
      next o hac =>
        split
        next t3 os happ =>
          rw [happ] at hrec
          exact hrec
        next t3 happ =>
          rw [happ] at hrec
          exact hrec

theorem applyPositions_append (m : HinModel) (layer : ℕ) (x : List T3) :
    ∀ (l1 l2 : List NTEntry) (i : ℕ) (tbl : List (String × AggInst)),
    applyPositions m layer x i (l1 ++ l2) tbl =
      match applyPositions m layer x i l1 tbl with
      | (t1, none) => (t1, none)
      | (t1, some o1) =>
        match applyPositions m layer x (i + l1.length) l2 t1 with
        | (t2, none) => (t2, none)
        | (t2, some o2) => (t2, some (o1 ++ o2)) := by
  intro l1
  induction l1 with
  | nil =>
    intro l2 i tbl
    rw [List.nil_append, applyPositions_nil, List.length_nil, Nat.add_zero]
    show applyPositions m layer x i l2 tbl =
      match applyPositions m layer x i l2 tbl with
      | (t2, none) => (t2, none)
      | (t2, some o2) => (t2, some ([] ++ o2))
    cases h : applyPositions m layer x i l2 tbl with
    | mk t2 r2 =>
      cases r2 with
      | none => rfl
      | some o2 =>
        show (t2, some o2) = (t2, some ([] ++ o2))
        rw [List.nil_append]
  | cons e rest ih =>
    intro l2 i tbl
    rw [List.cons_append, applyPositions_cons, applyPositions_cons]
    split
    · rfl
    next inste hle =>
      split
      next hac => rfl
      next o hac =>
        rw [ih l2 (i + 1) (updateTable tbl e.1 (buildIfNeeded inste (posShape m layer i x e)))]
        have hidx : i + 1 + rest.length = i + (e :: rest).length := by
          rw [List.length_cons]
          omega
        rw [hidx]
        cases hr : applyPositions m layer x (i + 1) rest
            (updateTable tbl e.1 (buildIfNeeded inste (posShape m layer i x e))) with
        | mk t3 r3 =>
          cases r3 with
          | none => rfl
          | some os =>
            show (match (match applyPositions m layer x (i + (e :: rest).length) l2 t3 with
                | (t2, none) => (t2, none)
                | (t2, some o2) => (t2, some (os ++ o2))) with
              | (table3, some os2) => (table3, some (o :: os2))
              | (table3, none) => (table3, none)) =
              match applyPositions m layer x (i + (e :: rest).length) l2 t3 with
              | (t2, none) => (t2, none)
              | (t2, some o2) => (t2, some ((o :: os) ++ o2))
            cases h2 : applyPositions m layer x (i + (e :: rest).length) l2 t3 with
            | mk t4 r4 =>
              cases r4 with
              | none => rfl
              | some o4 =>
                show (t4, some (o :: (os ++ o4))) = (t4, some ((o :: os) ++ o4))
                rw [List.cons_append]

/-- **C10 counterexample.** The entry `("a", [1, 0, 1])` is not sorted
ascending, yet the filter test (last index < length) agrees with the
all-indices-in-range condition for *every* tree length `n`: non-ascending
order does not imply the tests can differ, so "coincides exactly when
ascending" is false — the exact characterization is "the last index is a
maximum of the list". -/
theorem keep_test_counterexample :
    ¬ List.Chain' (· ≤ ·) [1, 0, 1] ∧
    ∀ n : ℕ, (keepTest n ("a", [1, 0, 1]) = true ↔ ∀ j ∈ [(1 : ℕ), 0, 1], j < n) := by
  refine ⟨fun h => absurd (List.chain'_cons.mp h).1 (by omega), fun n => ?_⟩
  have h1 : keepTest n ("a", [1, 0, 1]) = decide (1 < n) := rfl
  rw [h1, decide_eq_true_eq]
  constructor
  · intro h j hj
    simp only [List.mem_cons, List.not_mem_nil, or_false] at hj
    rcases hj with rfl | rfl | rfl <;> omega
  · intro h
    exact h 1 (by simp)

/-- **C10 (amended).** On a tree whose entries all have nonempty neighbour
lists, the per-layer filter keeps an entry iff the *last* element of its
`neighbor_indices` is below the current tree length, never inspecting the
earlier indices.  This coincides with requiring all indices in range exactly
when the last index is a maximum of the list (in particular whenever the
list is sorted ascending): if the last index is a maximum the two tests
agree at every length, and otherwise there is a length at which they
differ. -/
theorem keep_test_characterization (t : List NTEntry) (hne : ∀ e ∈ t, e.2 ≠ []) :
    evalStep t = some (t.filter (keepTest t.length)) ∧
    (∀ e : NTEntry, e ∈ t.filter (keepTest t.length) ↔
      (e ∈ t ∧ e.2.getLastD 0 < t.length)) ∧
    (∀ (e : NTEntry) (n : ℕ), e.2 ≠ [] → (∀ j ∈ e.2, j ≤ e.2.getLastD 0) →
      (keepTest n e = true ↔ ∀ j ∈ e.2, j < n)) ∧
    (∀ e : NTEntry, e.2 ≠ [] → ¬(∀ j ∈ e.2, j ≤ e.2.getLastD 0) →
      ∃ n, ¬(keepTest n e = true ↔ ∀ j ∈ e.2, j < n)) := by
  refine ⟨?_, ?_, ?_, ?_⟩
  · rw [evalStep, if_pos]
    rw [List.all_eq_true]
    intro e he
    simpa using hne e he
  · intro e
    rw [List.mem_filter, keepTest, decide_eq_true_eq]
  · intro e n hee hmax
    rw [keepTest, decide_eq_true_eq]
    constructor
    · intro h j hj
      exact lt_of_le_of_lt (hmax j hj) h
    · intro h
      exact h _ (getLastD_mem hee 0)
  · intro e hee hnmax
    push_neg at hnmax
    obtain ⟨j, hjm, hjgt⟩ := hnmax
    refine ⟨e.2.getLastD 0 + 1, fun hiff => ?_⟩
    have hall := hiff.mp (by rw [keepTest, decide_eq_true_eq]; omega)
    have := hall j hjm
    omega

/-- **C10 witness.** The amended theorem applied at a concrete tree. -/
theorem keep_test_characterization_witness :
    evalStep [("a", [1]), ("b", [2])] =
      some ([("a", [1]), ("b", [2])].filter (keepTest 2)) :=
  (keep_test_characterization [("a", [1]), ("b", [2])] (by decide)).1

/-- **C1 witness.** The theorem applied at a concrete aggregator and input. -/
theorem aggregator_call_correct_witness :
    1 ≤ [t4Zero].length ∧
    aggCall ⟨2, 1, false, linearQ, 1, [⟨0, 1, fun _ _ => 0⟩], ⟨0, 1, fun _ _ => 0⟩, fun _ => 0⟩
      t3Zero [t4Zero] =
      some (aggCallSpec
        ⟨2, 1, false, linearQ, 1, [⟨0, 1, fun _ _ => 0⟩], ⟨0, 1, fun _ _ => 0⟩, fun _ => 0⟩
        t3Zero [t4Zero]) := by
  refine ⟨by decide, ?_⟩
  exact (aggregator_call_correct
    ⟨2, 1, false, linearQ, 1, [⟨0, 1, fun _ _ => 0⟩], ⟨0, 1, fun _ _ => 0⟩, fun _ => 0⟩
    t3Zero [t4Zero] (by decide) rfl
    ⟨rfl, rfl, by intro w hw; simp at hw; rw [hw], rfl⟩ []).1

theorem applyPositions_take_isSome (m : HinModel) (layer : ℕ) (x : List T3)
    (l : List NTEntry) (i : ℕ) (tbl : List (String × AggInst)) (k : ℕ)
    (h : (applyPositions m layer x i l tbl).2.isSome) :
    (applyPositions m layer x i (l.take k) tbl).2.isSome := by
  rw [← List.take_append_drop k l, applyPositions_append] at h
  cases h1 : applyPositions m layer x i (l.take k) tbl with
  | mk t1 r1 =>
    rw [h1] at h
    cases r1 with
    | none => exact absurd h (by simp)
    | some o1 => simp

theorem tableAfter_lookup_of_ge (m : HinModel) (layer : ℕ) (x : List T3) (k j : ℕ)
    (hkj : k ≤ j) (ty : String) (inst : AggInst) (p : AggParams)
    (hlk : (tableAfter m layer x k).lookup ty = some inst) (hb : inst.built = some p) :
    (tableAfter m layer x j).lookup ty = some inst := by
  have hj : j = k + (j - k) := by omega
  rw [tableAfter] at hlk ⊢
  rw [hj, List.take_add, applyPositions_append]
  cases h1 : applyPositions m layer x 0 ((m.neighTrees.getD layer []).take k)
      (m.aggsB.getD layer []) with
  | mk t1 r1 =>
    rw [h1] at hlk
    cases r1 with
    | none => exact hlk
    | some o1 =>
      show (match applyPositions m layer x
          (0 + ((m.neighTrees.getD layer []).take k).length)
          (((m.neighTrees.getD layer []).drop k).take (j - k)) t1 with
        | (t2, none) => (t2, none)
        | (t2, some o2) => (t2, some (o1 ++ o2))).1.lookup ty = some inst
      have hpres := applyPositions_preserves m layer x
        (((m.neighTrees.getD layer []).drop k).take (j - k))
        (0 + ((m.neighTrees.getD layer []).take k).length) t1 ty inst p hlk hb
      cases h2 : applyPositions m layer x (0 + ((m.neighTrees.getD layer []).take k).length)
          (((m.neighTrees.getD layer []).drop k).take (j - k)) t1 with
      | mk t2 r2 =>
        rw [h2] at hpres
        cases r2 with
        | none => exact hpres
        | some o2 => exact hpres

theorem applyPositions_singleton (m : HinModel) (layer : ℕ) (x : List T3) (i : ℕ)
    (e : NTEntry) (tbl : List (String × AggInst)) (inst : AggInst)
    (hlk : tbl.lookup e.1 = some inst) :
    applyPositions m layer x i [e] tbl =
      (updateTable tbl e.1 (buildIfNeeded inst (posShape m layer i x e)),
       (aggCall ((buildIfNeeded inst (posShape m layer i x e)).built.getD aggParamsZero)
          (posSelf m i x) (posNeighs m layer i x e)).map (fun o => [o])) := by
  rw [applyPositions_cons, hlk]
  show (match aggCall ((buildIfNeeded inst (posShape m layer i x e)).built.getD aggParamsZero)
        (posSelf m i x) (posNeighs m layer i x e) with
    | none => (updateTable tbl e.1 (buildIfNeeded inst (posShape m layer i x e)), none)
    | some o =>
      match applyPositions m layer x (i + 1) []
          (updateTable tbl e.1 (buildIfNeeded inst (posShape m layer i x e))) with
      | (table3, some os) => (table3, some (o :: os))
      | (table3, none) => (table3, none)) =
    (updateTable tbl e.1 (buildIfNeeded inst (posShape m layer i x e)),
     (aggCall ((buildIfNeeded inst (posShape m layer i x e)).built.getD aggParamsZero)
        (posSelf m i x) (posNeighs m layer i x e)).map (fun o => [o]))
  cases hac : aggCall ((buildIfNeeded inst (posShape m layer i x e)).built.getD aggParamsZero)
      (posSelf m i x) (posNeighs m layer i x e) with
  | none => rfl
  | some o => rfl

theorem tableAfter_succ_of_success (m : HinModel) (layer : ℕ) (x : List T3) (i : ℕ)
    (hi : i < (m.neighTrees.getD layer []).length)
    (hs : (applyPositions m layer x 0 ((m.neighTrees.getD layer []).take (i + 1))
      (m.aggsB.getD layer [])).2.isSome) :
    ∃ inst, (tableAfter m layer x i).lookup
        ((m.neighTrees.getD layer []).getD i ("", [])).1 = some inst ∧
      tableAfter m layer x (i + 1) =
        updateTable (tableAfter m layer x i)
          ((m.neighTrees.getD layer []).getD i ("", [])).1
          (buildIfNeeded inst
            (posShape m layer i x ((m.neighTrees.getD layer []).getD i ("", [])))) := by
  have htake : (m.neighTrees.getD layer []).take (i + 1) =
      (m.neighTrees.getD layer []).take i ++ [(m.neighTrees.getD layer []).getD i ("", [])] := by
    rw [List.take_succ, List.getElem?_eq_getElem hi, List.getD_eq_getElem _ _ hi]
    rfl
  rw [htake, applyPositions_append] at hs
  simp only [tableAfter]
  rw [htake, applyPositions_append]
  cases h1 : applyPositions m layer x 0 ((m.neighTrees.getD layer []).take i)
      (m.aggsB.getD layer []) with
  | mk t1 r1 =>
    rw [h1] at hs
    cases r1 with
    | none => exact absurd hs (by simp)
    | some o1 =>
      have hlen : (0 + ((m.neighTrees.getD layer []).take i).length) = i := by
        rw [List.length_take]
        omega
      rw [hlen] at hs ⊢
      have hs2 : (match applyPositions m layer x i
          [(m.neighTrees.getD layer []).getD i ("", [])] t1 with
        | (t2, none) => (t2, none)
        | (t2, some o2) => (t2, some (o1 ++ o2))).2.isSome := hs
      show ∃ inst, t1.lookup ((m.neighTrees.getD layer []).getD i ("", [])).1 = some inst ∧
        (match applyPositions m layer x i
            [(m.neighTrees.getD layer []).getD i ("", [])] t1 with
          | (t2, none) => (t2, none)
          | (t2, some o2) => (t2, some (o1 ++ o2))).1 =
        updateTable t1 ((m.neighTrees.getD layer []).getD i ("", [])).1
          (buildIfNeeded inst (posShape m layer i x
            ((m.neighTrees.getD layer []).getD i ("", []))))
      cases hlk : t1.lookup ((m.neighTrees.getD layer []).getD i ("", [])).1 with
      | none =>
        rw [applyPositions_cons, hlk] at hs2
        exact absurd hs2 (by simp)
      | some inst =>
        refine ⟨inst, rfl, ?_⟩
        rw [applyPositions_singleton m layer x i _ t1 inst hlk]
        cases hac : aggCall ((buildIfNeeded inst (posShape m layer i x
              ((m.neighTrees.getD layer []).getD i ("", [])))).built.getD aggParamsZero)
            (posSelf m i x)
            (posNeighs m layer i x ((m.neighTrees.getD layer []).getD i ("", []))) with
        | none => rfl
        | some o => rfl

theorem updateTable_keys (tbl : List (String × AggInst)) (k : String) (v : AggInst) :
    (updateTable tbl k v).map Prod.fst = tbl.map Prod.fst := by
  rw [updateTable, List.map_map]
  refine List.map_congr_left ?_
  intro kv _
  by_cases h : kv.1 = k
  · simp [h]
  · simp [h]

theorem applyPositions_keys (m : HinModel) (layer : ℕ) (x : List T3) :
    ∀ (l : List NTEntry) (i : ℕ) (tbl : List (String × AggInst)),
    (applyPositions m layer x i l tbl).1.map Prod.fst = tbl.map Prod.fst := by
  intro l
  induction l with
  | nil =>
    intro i tbl
    rfl
  | cons e rest ih =>
    intro i tbl
    rw [applyPositions_cons]
    split
    · rfl
    next inste hle =>
      split
      next hac => exact updateTable_keys tbl e.1 _
      next o hac =>
        have hrec := ih (i + 1) (updateTable tbl e.1 (buildIfNeeded inste
          (posShape m layer i x e)))
        split
        next t3 os happ =>
          rw [happ] at hrec
          rw [hrec]
          exact updateTable_keys tbl e.1 _
        next t3 happ =>
          rw [happ] at hrec
          rw [hrec]
          exact updateTable_keys tbl e.1 _

theorem pyDedupKeysAux_nodup (l : List String) :
    ∀ seen : List String,
    (pyDedupKeysAux seen l).Nodup ∧ ∀ a ∈ pyDedupKeysAux seen l, a ∉ seen := by
  induction l with
  | nil =>
    intro seen
    exact ⟨List.nodup_nil, fun a ha => absurd ha (List.not_mem_nil a)⟩
  | cons b l ih =>
    intro seen
    rw [pyDedupKeysAux]
    by_cases hb : b ∈ seen
    · rw [if_pos hb]
      exact ih seen
    · rw [if_neg hb]
      obtain ⟨hnd, hout⟩ := ih (b :: seen)
      refine ⟨List.nodup_cons.mpr ⟨fun hmem => ?_, hnd⟩, fun a ha => ?_⟩
      · exact absurd (List.mem_cons_self b seen) (hout b hmem)
      · rcases List.mem_cons.mp ha with rfl | ha2
        · exact hb
        · intro hsn
          exact hout a ha2 (List.mem_cons_of_mem b hsn)

theorem pyDedupKeys_nodup (l : List String) : (pyDedupKeys l).Nodup :=
  (pyDedupKeysAux_nodup l []).1

theorem hinDims_keys_nodup (inputDim : List (String × ℕ))
    (outputDims : List (ℕ ⊕ List (String × ℕ))) (neighTrees : List (List NTEntry))
    (hdims : ∀ od ∈ outputDims, ∀ dct, od = Sum.inr dct → (dct.map Prod.fst).Nodup)
    (layer : ℕ) (hlay : layer < outputDims.length) :
    (((hinDims inputDim outputDims neighTrees).getD (layer + 1) []).map Prod.fst).Nodup := by
  rw [hinDims, List.getD_cons_succ]
  rw [getD_map_of_lt (List.range outputDims.length) _ layer (by simpa using hlay) [] 0]
  have hrg : (List.range outputDims.length).getD layer 0 = layer := by
    rw [List.getD_eq_getElem _ _ (by simpa using hlay), List.getElem_range]
  rw [hrg]
  cases hod : outputDims.getD layer (Sum.inl 0) with
  | inl n =>
    rw [List.map_map]
    have hid : (Prod.fst ∘ fun k => ((k, n) : String × ℕ)) = id := rfl
    rw [hid, List.map_id]
    exact pyDedupKeys_nodup _
  | inr dct =>
    exact hdims (outputDims.getD layer (Sum.inl 0)) (getD_mem_of_lt _ _ hlay _) dct hod

/-- **C3.** Exactly one aggregator instance exists per (layer, node type) in a
successfully constructed composer (the per-layer table's keys are distinct),
each created unbuilt at construction; a forward pass through a layer neither
adds nor removes table keys, an instance whose weights are built is carried
through the whole pass unchanged (never recreated), and any two positions of
the same node type in the same layer are processed by the *same* instance —
the later position sees exactly the instance the earlier position built, so
they use identical weight matrices. -/
theorem aggregator_weight_sharing (outputDims : List (ℕ ⊕ List (String × ℕ)))
    (nSamples : List ℕ) (tree : List NTEntry) (inputDim : List (String × ℕ)) (bias : Bool)
    (dropV sqrtFn : ℚ → ℚ) (inits : ℕ → String → (ℕ → ℕ → ℕ → ℚ) × (ℕ → ℕ → ℚ))
    (m : HinModel)
    (hmk : mkHinSAGE outputDims nSamples tree inputDim bias dropV sqrtFn inits = some m)
    (hdims : ∀ od ∈ outputDims, ∀ dct, od = Sum.inr dct → (dct.map Prod.fst).Nodup)
    (layer : ℕ) (hL : layer < m.nLayers) (x : List T3) :
    ((m.aggsB.getD layer []).map Prod.fst).Nodup ∧
    (∀ e ∈ m.aggsB.getD layer [], e.2.built = none) ∧
    (applyLayer m layer x).1.map Prod.fst = (m.aggsB.getD layer []).map Prod.fst ∧
    (∀ (ty : String) (inst : AggInst) (p : AggParams),
      (m.aggsB.getD layer []).lookup ty = some inst → inst.built = some p →
      (applyLayer m layer x).1.lookup ty = some inst) ∧
    (∀ i j : ℕ, i < j → j < (m.neighTrees.getD layer []).length →
      ((m.neighTrees.getD layer []).getD i ("", [])).1 =
        ((m.neighTrees.getD layer []).getD j ("", [])).1 →
      (applyLayer m layer x).2.isSome →
      instUsedAt m layer x j = instUsedAt m layer x i) := by
  have hkeysP : (applyLayer m layer x).1.map Prod.fst =
      (m.aggsB.getD layer []).map Prod.fst :=
    applyPositions_keys m layer x (m.neighTrees.getD layer []) 0 (m.aggsB.getD layer [])
  have hpreserve : ∀ (ty : String) (inst : AggInst) (p : AggParams),
      (m.aggsB.getD layer []).lookup ty = some inst → inst.built = some p →
      (applyLayer m layer x).1.lookup ty = some inst :=
    fun ty inst p hlk hb => applyPositions_preserves m layer x
      (m.neighTrees.getD layer []) 0 (m.aggsB.getD layer []) ty inst p hlk hb
  have hshare : ∀ i j : ℕ, i < j → j < (m.neighTrees.getD layer []).length →
      ((m.neighTrees.getD layer []).getD i ("", [])).1 =
        ((m.neighTrees.getD layer []).getD j ("", [])).1 →
      (applyLayer m layer x).2.isSome →
      instUsedAt m layer x j = instUsedAt m layer x i := by
    intro i j hij hjl hty hfull
    have hi : i < (m.neighTrees.getD layer []).length := lt_trans hij hjl
    have hs1 := applyPositions_take_isSome m layer x (m.neighTrees.getD layer []) 0
      (m.aggsB.getD layer []) (i + 1) hfull
    obtain ⟨inst, hlk, hupd⟩ := tableAfter_succ_of_success m layer x i hi hs1
    have hInstEq : instUsedAt m layer x i = buildIfNeeded inst
        (posShape m layer i x ((m.neighTrees.getD layer []).getD i ("", []))) := by
      simp only [instUsedAt]
      rw [hlk]
      rfl
    have hbuilt := buildIfNeeded_built_isSome inst
      (posShape m layer i x ((m.neighTrees.getD layer []).getD i ("", [])))
    rw [← hInstEq] at hbuilt
    obtain ⟨p, hp⟩ := Option.isSome_iff_exists.mp hbuilt
    have hlk2 : (tableAfter m layer x (i + 1)).lookup
        ((m.neighTrees.getD layer []).getD i ("", [])).1 =
        some (instUsedAt m layer x i) := by
      rw [hupd, lookup_updateTable, if_pos rfl, hlk, hInstEq]
      rfl
    have hlk3 : (tableAfter m layer x j).lookup
        ((m.neighTrees.getD layer []).getD j ("", [])).1 =
        some (instUsedAt m layer x i) := by
      rw [← hty]
      exact tableAfter_lookup_of_ge m layer x (i + 1) j (by omega) _ _ p hlk2 hp
    have hj : instUsedAt m layer x j = buildIfNeeded
        (((tableAfter m layer x j).lookup
          ((m.neighTrees.getD layer []).getD j ("", [])).1).getD aggInstZero)
        (posShape m layer j x ((m.neighTrees.getD layer []).getD j ("", []))) := rfl
    rw [hj, hlk3]
    exact buildIfNeeded_of_built hp _
  rw [mkHinSAGE] at hmk
  by_cases hlen : nSamples.length = outputDims.length
  swap
  · rw [if_neg hlen] at hmk
    cases hmk
  rw [if_pos hlen] at hmk
  cases hev : evalNeighTreePerLayer ((tree.filter (fun li => !li.2.isEmpty)).length + 1)
      (tree.filter (fun li => !li.2.isEmpty)) with
  | none =>
    rw [hev] at hmk
    cases hmk
  | some nt =>
    rw [hev] at hmk
    simp only [Option.some_bind] at hmk
    cases hagg : hinAggs nSamples.length (hinDims inputDim outputDims nt) bias inits with
    | none =>
      rw [hagg] at hmk
      cases hmk
    | some ag =>
      rw [hagg] at hmk
      obtain rfl := Option.some.inj hmk
      obtain ⟨haglen, hfa⟩ := hinAggs_layer hagg layer hL
      refine ⟨?_, ?_, hkeysP, hpreserve, hshare⟩
      · have hkeys : (ag.getD layer []).map Prod.fst =
            ((hinDims inputDim outputDims nt).getD (layer + 1) []).map Prod.fst := by
          refine (forall₂_map_eq hfa ?_).symm
          intro td e hrel
          cases hmk2 : mkMeanHinAggregator td.2 bias (if layer < nSamples.length - 1
              then reluQ else linearQ) with
          | none =>
            rw [hmk2] at hrel
            cases hrel
          | some cfg =>
            rw [hmk2] at hrel
            obtain rfl := Option.some.inj hrel
            rfl
        show ((ag.getD layer []).map Prod.fst).Nodup
        rw [hkeys]
        refine hinDims_keys_nodup inputDim outputDims nt hdims layer ?_
        have hLn : layer < nSamples.length := hL
        omega
      · intro e he
        obtain ⟨td, _, hrel⟩ := forall₂_mem_right hfa e he
        cases hmk2 : mkMeanHinAggregator td.2 bias (if layer < nSamples.length - 1
            then reluQ else linearQ) with
        | none =>
          rw [hmk2] at hrel
          cases hrel
        | some cfg =>
          rw [hmk2] at hrel
          obtain rfl := Option.some.inj hrel
          rfl

/-- **C3 witness.** In the concrete two-layer model, layer 0 has two positions
of type `"paper"`; the theorem applied there shows the second position is
processed by exactly the instance the first position built. -/
theorem aggregator_weight_sharing_witness :
    instUsedAt egModel 0 [t3Zero, t3Zero, t3Zero] 1 =
      instUsedAt egModel 0 [t3Zero, t3Zero, t3Zero] 0 :=
  (aggregator_weight_sharing [Sum.inl 4, Sum.inl 2] [2, 2]
    [("paper", [1]), ("paper", [2]), ("paper", [])] [("paper", 3)] false linearQ linearQ
    (fun _ _ => (fun _ _ _ => 0, fun _ _ => 0)) egModel rfl
    (by
      intro od hod dct heq
      simp only [List.mem_cons, List.not_mem_nil, or_false] at hod
      rcases hod with rfl | rfl <;> cases heq)
    0 (by decide) [t3Zero, t3Zero, t3Zero]).2.2.2.2 0 1 (by decide) (by decide) rfl
    (by decide)

end HinSage
